import Mathlib

/-!
Verification of the gust HTTP core: the serve-core single-pass HTTP/1.1
request parser (`src/packages/core/crates/serve-core/src/parser.rs`) and the
radix-trie routers (`src/crates/gust-router/src/lib.rs` and
`src/packages/core/crates/serve-core/src/router.rs`).

Byte buffers are modelled as `List Nat` (one `Nat` per byte); all offsets are
`Nat`. Loops in the source are modelled as fuel-indexed structural recursion;
any operation that could panic in the source (out-of-bounds index) is
modelled in an `Option` layer where `none` marks the panic, so that panic
freedom is a provable statement.
-/

set_option maxHeartbeats 1000000
set_option maxRecDepth 10000

namespace Gust

/-- Bytes of a string literal (ASCII in every use below). -/
def strBytes (s : String) : List Nat :=
  s.data.map Char.toNat

/-- HTTP method enumeration, from `Method` in serve-core `parser.rs`. -/
inductive Method where
  | get | post | put | delete | patch | head | options | connect | trace
  deriving Repr, DecidableEq

instance : Inhabited Method := ⟨Method.get⟩

/-- `Method::parse` from `parser.rs`: first-byte dispatch, then exact
(case-sensitive) comparison against the nine literals. -/
def Method.parse (bytes : List Nat) : Option Method :=
  match bytes.head? with
  | none => none
  | some b =>
    if b = 71 then (if bytes = strBytes "GET" then some .get else none)
    else if b = 80 then
      (if bytes = strBytes "POST" then some .post
       else if bytes = strBytes "PUT" then some .put
       else if bytes = strBytes "PATCH" then some .patch
       else none)
    else if b = 68 then (if bytes = strBytes "DELETE" then some .delete else none)
    else if b = 72 then (if bytes = strBytes "HEAD" then some .head else none)
    else if b = 79 then (if bytes = strBytes "OPTIONS" then some .options else none)
    else if b = 67 then (if bytes = strBytes "CONNECT" then some .connect else none)
    else if b = 84 then (if bytes = strBytes "TRACE" then some .trace else none)
    else none

/-- `ParsedRequest` from `parser.rs`: state 0 = incomplete, 1 = complete,
2 = error; all offsets are absolute byte indices into the parsed buffer. -/
structure ParsedRequest where
  state : Nat
  method : Method
  path_start : Nat
  path_end : Nat
  query_start : Nat
  query_end : Nat
  headers_count : Nat
  body_start : Nat
  deriving Repr, DecidableEq

instance : Inhabited ParsedRequest :=
  ⟨⟨0, .get, 0, 0, 0, 0, 0, 0⟩⟩

/-- A recorded header quadruple `[name_start, name_end, value_start,
value_end]` (one row of the `HeaderOffsets` output array). -/
abbrev HQuad := Nat × Nat × Nat × Nat

/-- Search helper: absolute index of the first byte at index `≥ i` (relative
position tracked by the accumulator) satisfying `p`. -/
def findIdxAux (p : Nat → Bool) : List Nat → Nat → Option Nat
  | [], _ => none
  | b :: bs, i => if p b then some i else findIdxAux p bs (i + 1)

/-- `memchr`/`memchr2` model: absolute index of the first byte at or after
`pos` satisfying `p` (the source searches the slice `&buf[pos..]` and adds
`pos` back). -/
def memchrFrom (p : Nat → Bool) (buf : List Nat) (pos : Nat) : Option Nat :=
  findIdxAux p (buf.drop pos) pos

/-- Header-value leading whitespace: space or tab. -/
def isWsByte (b : Nat) : Bool := b = 32 || b = 9

/-- Length of the leading run of whitespace bytes. -/
def wsLen : List Nat → Nat
  | [] => 0
  | b :: bs => if isWsByte b then wsLen bs + 1 else 0

/-- The `while pos < len && (buf[pos] == b' ' || buf[pos] == b'\t')` loop of
`parse_request`: first non-whitespace position at or after `pos`. -/
def skipWs (buf : List Nat) (pos : Nat) : Nat := pos + wsLen (buf.drop pos)

/-- The `for i in pos..line_end` scan of `parse_request` locating the path
end, query bounds and the space before the HTTP version. State `(i, pe, qs,
qe)` mirrors the loop variables `(i, path_end, query_start, query_end)`;
the returned `Bool` is `found_space`. `none` marks an out-of-bounds read
(proved unreachable when `L ≤ buf.length`). -/
def scanPQ (buf : List Nat) (L : Nat) : Nat → Nat → Nat → Nat → Nat → Option (Nat × Nat × Nat × Bool)
  | 0, _, pe, qs, qe => some (pe, qs, qe, false)
  | fuel + 1, i, pe, qs, qe =>
    if i < L then
      match buf.get? i with
      | none => none
      | some b =>
        if b = 32 then
          (if qs = 0 then some (i, qs, qe, true) else some (pe, qs, i, true))
        else if b = 63 ∧ qs = 0 then
          scanPQ buf L fuel (i + 1) i (i + 1) qe
        else
          scanPQ buf L fuel (i + 1) pe qs qe
    else some (pe, qs, qe, false)

/-- `MAX_HEADERS` from `parser.rs`. -/
def MAX_HEADERS : Nat := 64

/-- One header line of the header loop of `parse_request`, starting at `pos`
(which the loop has checked is not the blank line): find the colon, skip
whitespace, find the line end, record the quadruple if fewer than
`MAX_HEADERS` are recorded, and step past the line terminator. `none` is the
early `return result` (incomplete); `some (pos2, hs2)` continues the loop. -/
def headerLine (buf : List Nat) (pos : Nat) (hs : List HQuad) : Option (Nat × List HQuad) :=
  match memchrFrom (fun b => b = 58) buf pos with
  | none => none
  | some colon =>
    let wsEnd := skipWs buf (colon + 1)
    match memchrFrom (fun b => b = 13 || b = 10) buf wsEnd with
    | none => none
    | some lineEnd =>
      let hs2 := if hs.length < MAX_HEADERS then hs ++ [(pos, colon, wsEnd, lineEnd)] else hs
      let p1 := if buf.get? lineEnd = some 13 then lineEnd + 1 else lineEnd
      let p2 := if buf.get? p1 = some 10 then p1 + 1 else p1
      some (p2, hs2)

/-- Specification variant of `headerLine` with no capacity cap: every header
quadruple is recorded. Identical otherwise. -/
def headerLineU (buf : List Nat) (pos : Nat) (hs : List HQuad) : Option (Nat × List HQuad) :=
  match memchrFrom (fun b => b = 58) buf pos with
  | none => none
  | some colon =>
    let wsEnd := skipWs buf (colon + 1)
    match memchrFrom (fun b => b = 13 || b = 10) buf wsEnd with
    | none => none
    | some lineEnd =>
      let hs2 := hs ++ [(pos, colon, wsEnd, lineEnd)]
      let p1 := if buf.get? lineEnd = some 13 then lineEnd + 1 else lineEnd
      let p2 := if buf.get? p1 = some 10 then p1 + 1 else p1
      some (p2, hs2)

/-- The header loop of `parse_request`, fuel-indexed. Result: `none` =
out-of-bounds read or fuel exhaustion (both proved unreachable from the
entry conditions), `some none` = early `return result` (incomplete),
`some (some (body_start, hs))` = blank line reached. -/
def parseHeadersF (buf : List Nat) : Nat → Nat → List HQuad → Option (Option (Nat × List HQuad))
  | 0, _, _ => none
  | fuel + 1, pos, hs =>
    if pos ≥ buf.length then some none
    else
      match buf.get? pos with
      | none => none
      | some b0 =>
        if b0 = 13 then
          if pos + 1 ≥ buf.length then some none
          else
            match buf.get? (pos + 1) with
            | none => none
            | some b1 =>
              if b1 = 10 then some (some (pos + 2, hs))
              else
                match headerLine buf pos hs with
                | none => some none
                | some (pos2, hs2) => parseHeadersF buf fuel pos2 hs2
        else if b0 = 10 then some (some (pos + 1, hs))
        else
          match headerLine buf pos hs with
          | none => some none
          | some (pos2, hs2) => parseHeadersF buf fuel pos2 hs2

/-- Uncapped specification variant of the header loop, using `headerLineU`. -/
def parseHeadersU (buf : List Nat) : Nat → Nat → List HQuad → Option (Option (Nat × List HQuad))
  | 0, _, _ => none
  | fuel + 1, pos, hs =>
    if pos ≥ buf.length then some none
    else
      match buf.get? pos with
      | none => none
      | some b0 =>
        if b0 = 13 then
          if pos + 1 ≥ buf.length then some none
          else
            match buf.get? (pos + 1) with
            | none => none
            | some b1 =>
              if b1 = 10 then some (some (pos + 2, hs))
              else
                match headerLineU buf pos hs with
                | none => some none
                | some (pos2, hs2) => parseHeadersU buf fuel pos2 hs2
        else if b0 = 10 then some (some (pos + 1, hs))
        else
          match headerLineU buf pos hs with
          | none => some none
          | some (pos2, hs2) => parseHeadersU buf fuel pos2 hs2

/-- `parse_request` from `parser.rs`, in the panic-tracking `Option` layer:
`none` marks a reachable out-of-bounds access (proved unreachable). The
recorded header quadruples are returned as a list (the source writes them
into the caller's `HeaderOffsets` array at rows `0..headers_count`). -/
def parseO (buf : List Nat) : Option (ParsedRequest × List HQuad) :=
  let len := buf.length
  let r0 : ParsedRequest := default
  if len < 18 then some (r0, [])
  else
    match memchrFrom (fun b => b = 32) buf 0 with
    | none => some (r0, [])
    | some me =>
      if me < 8 then
        match Method.parse (buf.take me) with
        | none => some ({ r0 with state := 2 }, [])
        | some m =>
          let pos := me + 1
          let r1 := { r0 with method := m, path_start := pos }
          match memchrFrom (fun b => b = 13 || b = 10) buf pos with
          | none => some (r1, [])
          | some lineEnd =>
            match scanPQ buf lineEnd (lineEnd - pos) pos pos 0 0 with
            | none => none
            | some (pe, qs, qe, found) =>
              if found = false then some (r1, [])
              else
                let r2 := { r1 with path_end := pe, query_start := qs, query_end := qe }
                if lineEnd + 1 ≥ len then some (r2, [])
                else
                  match buf.get? lineEnd with
                  | none => none
                  | some b =>
                    let pos3 := if b = 13 then lineEnd + 2 else lineEnd + 1
                    match parseHeadersF buf (len + 1) pos3 [] with
                    | none => none
                    | some none => some (r2, [])
                    | some (some (body, hs)) =>
                      some ({ r2 with headers_count := hs.length, body_start := body, state := 1 }, hs)
      else some (r0, [])

/-- Specification variant of `parse_request` with the header cap removed. -/
def parseOU (buf : List Nat) : Option (ParsedRequest × List HQuad) :=
  let len := buf.length
  let r0 : ParsedRequest := default
  if len < 18 then some (r0, [])
  else
    match memchrFrom (fun b => b = 32) buf 0 with
    | none => some (r0, [])
    | some me =>
      if me < 8 then
        match Method.parse (buf.take me) with
        | none => some ({ r0 with state := 2 }, [])
        | some m =>
          let pos := me + 1
          let r1 := { r0 with method := m, path_start := pos }
          match memchrFrom (fun b => b = 13 || b = 10) buf pos with
          | none => some (r1, [])
          | some lineEnd =>
            match scanPQ buf lineEnd (lineEnd - pos) pos pos 0 0 with
            | none => none
            | some (pe, qs, qe, found) =>
              if found = false then some (r1, [])
              else
                let r2 := { r1 with path_end := pe, query_start := qs, query_end := qe }
                if lineEnd + 1 ≥ len then some (r2, [])
                else
                  match buf.get? lineEnd with
                  | none => none
                  | some b =>
                    let pos3 := if b = 13 then lineEnd + 2 else lineEnd + 1
                    match parseHeadersU buf (len + 1) pos3 [] with
                    | none => none
                    | some none => some (r2, [])
                    | some (some (body, hs)) =>
                      some ({ r2 with headers_count := hs.length, body_start := body, state := 1 }, hs)
      else some (r0, [])

/-! ## Router embedding

Strings are modelled as `List Char`. Both routers (gust-router and
serve-core) share the same `Node` shape and the same `find`/`find_node`
code; their `insert_node` functions differ in the wildcard arm and are
embedded separately. The `HashMap`s are modelled as association lists:
only keyed lookup (`get`) and get-or-create (`entry().or_default()`) are
used on them, so the association-list model is observationally faithful. -/

abbrev Str := List Char

/-- Trie node (`Node` in both router sources): static children keyed by
segment, at most one parameter child `(name, node)`, at most one wildcard
child `(name, handler_id)`, and an optional terminal handler. -/
inductive Node where
  | mk (children : List (Str × Node)) (paramChild : Option (Str × Node))
       (wildcardChild : Option (Str × Nat)) (handler : Option Nat)

def Node.children : Node → List (Str × Node)
  | .mk c _ _ _ => c

def Node.paramChild : Node → Option (Str × Node)
  | .mk _ p _ _ => p

def Node.wildcardChild : Node → Option (Str × Nat)
  | .mk _ _ w _ => w

def Node.handler : Node → Option Nat
  | .mk _ _ _ h => h

/-- `Node::default()`. -/
def Node.empty : Node := .mk [] none none none

/-- `HashMap::get` on an association list. -/
def lookupChild : List (Str × Node) → Str → Option Node
  | [], _ => none
  | (k, n) :: rest, s => if k = s then some n else lookupChild rest s

/-- Keyed update (insert-or-replace) on an association list: the model of
writing through `entry(key).or_default()`. -/
def updChild : List (Str × Node) → Str → Node → List (Str × Node)
  | [], s, n => [(s, n)]
  | (k, m) :: rest, s, n => if k = s then (k, n) :: rest else (k, m) :: updChild rest s n

/-- `Router::insert_node` from gust-router `lib.rs`: `:name`
(`strip_prefix(':')`) get-or-creates the parameter child keeping a
pre-existing bound name; `*name` (`strip_prefix('*')`, including bare `*`,
which is bound to the key `"*"`) replaces the wildcard child and stops;
anything else is a static segment. -/
def insertNodeG : Node → List Str → Nat → Node
  | .mk c p w _, [], h => .mk c p w (some h)
  | .mk c p w hd, seg :: rest, h =>
    if seg.head? = some ':' then
      let pc := p.getD (seg.tail, Node.empty)
      .mk c (some (pc.1, insertNodeG pc.2 rest h)) w hd
    else if seg.head? = some '*' then
      let wname := if seg.tail = [] then ['*'] else seg.tail
      .mk c p (some (wname, h)) hd
    else
      let child := (lookupChild c seg).getD Node.empty
      .mk (updChild c seg (insertNodeG child rest h)) p w hd

/-- `Router::insert_node` from serve-core `router.rs`: identical to the
gust-router version except that only the bare segment `"*"` is a wildcard
(bound to the key `"*"`); a segment such as `"*path"` is static. -/
def insertNodeS : Node → List Str → Nat → Node
  | .mk c p w _, [], h => .mk c p w (some h)
  | .mk c p w hd, seg :: rest, h =>
    if seg.head? = some ':' then
      let pc := p.getD (seg.tail, Node.empty)
      .mk c (some (pc.1, insertNodeS pc.2 rest h)) w hd
    else if seg = ['*'] then .mk c p (some (['*'], h)) hd
    else
      let child := (lookupChild c seg).getD Node.empty
      .mk (updChild c seg (insertNodeS child rest h)) p w hd

/-- `Match` from the router sources. -/
structure RouteMatch where
  handler_id : Nat
  params : List (Str × Str)
  deriving Repr, DecidableEq

/-- `segments.join("/")`. -/
def joinSlash : List Str → Str
  | [] => []
  | [s] => s
  | s :: rest => s ++ '/' :: joinSlash rest

/-- `Router::find_node` (textually identical in gust-router and serve-core).
The `&mut Vec` params buffer is threaded explicitly: the second component of
the result is the buffer's final contents, so that the `push`/`pop`
backtracking of the source is represented exactly. -/
def findNode : Node → List Str → List (Str × Str) → Option RouteMatch × List (Str × Str)
  | n, [], ps => ((Node.handler n).map (fun id => ({ handler_id := id, params := ps } : RouteMatch)), ps)
  | n, seg :: rest, ps =>
    let s1 : Option RouteMatch × List (Str × Str) :=
      match lookupChild (Node.children n) seg with
      | none => (none, ps)
      | some child => findNode child rest ps
    match s1 with
    | (some m, ps1) => (some m, ps1)
    | (none, ps1) =>
      let s2 : Option RouteMatch × List (Str × Str) :=
        match Node.paramChild n with
        | none => (none, ps1)
        | some pc =>
          match findNode pc.2 rest (ps1 ++ [(pc.1, seg)]) with
          | (some m, ps2) => (some m, ps2)
          | (none, ps2) => (none, ps2.dropLast)
      match s2 with
      | (some m, ps2) => (some m, ps2)
      | (none, ps2) =>
        match Node.wildcardChild n with
        | none => (none, ps2)
        | some wc =>
          let ps3 := ps2 ++ [(wc.1, joinSlash (seg :: rest))]
          (some { handler_id := wc.2, params := ps3 }, ps3)

/-- `path.split('/')` (Rust `str::split` on a single char). -/
def splitSlash : List Char → List Str
  | [] => [[]]
  | c :: cs =>
    if c = '/' then [] :: splitSlash cs
    else
      match splitSlash cs with
      | [] => [[c]]
      | s :: ss => (c :: s) :: ss

/-- `path.split('/').filter(|s| !s.is_empty())`. -/
def segsOf (p : Str) : List Str := (splitSlash p).filter (fun s => !s.isEmpty)

/-- `method.to_uppercase()` (ASCII methods in every use here). -/
def upper (s : Str) : Str := s.map Char.toUpper

/-- The `trees: HashMap<String, Node>` of a `Router`, keyed by uppercased
method. -/
abbrev Trees := List (Str × Node)

/-- `Router::insert` of gust-router. -/
def insertG (r : Trees) (method path : Str) (h : Nat) : Trees :=
  let m := upper method
  let tree := (lookupChild r m).getD Node.empty
  updChild r m (insertNodeG tree (segsOf path) h)

/-- `Router::insert` of serve-core. -/
def insertS (r : Trees) (method path : Str) (h : Nat) : Trees :=
  let m := upper method
  let tree := (lookupChild r m).getD Node.empty
  updChild r m (insertNodeS tree (segsOf path) h)

/-- `Router::find` (textually identical in both sources). -/
def findR (r : Trees) (method path : Str) : Option RouteMatch :=
  match lookupChild r (upper method) with
  | none => none
  | some tree => (findNode tree (segsOf path) []).1

/-! ## Byte-search lemmas -/

/-! ## Request-line scan lemmas -/

/-! ## Header-loop lemmas -/

/-- The offset invariant of one recorded header quadruple
`(name_start, name_end, value_start, value_end)`: ordered and in bounds,
the colon sits at `name_end`, the name contains no colon, only
whitespace separates the colon from the value, the value contains no line
terminator, and a line terminator sits at `value_end`. This pins the
name and value slices to exactly the header text. -/
def goodQuad (buf : List Nat) (q : HQuad) : Prop :=
  q.1 ≤ q.2.1 ∧ q.2.1 < q.2.2.1 ∧ q.2.2.1 ≤ q.2.2.2 ∧ q.2.2.2 < buf.length ∧
  buf.get? q.2.1 = some 58 ∧
  (∀ k, q.1 ≤ k → k < q.2.1 → ∃ b, buf.get? k = some b ∧ b ≠ 58) ∧
  (∀ k, q.2.1 + 1 ≤ k → k < q.2.2.1 → ∃ b, buf.get? k = some b ∧ isWsByte b = true) ∧
  (∀ k, q.2.2.1 ≤ k → k < q.2.2.2 → ∃ b, buf.get? k = some b ∧ b ≠ 13 ∧ b ≠ 10) ∧
  (∃ b, buf.get? q.2.2.2 = some b ∧ (b = 13 ∨ b = 10))

/-! ## Whole-parse lemmas -/

/-! ## Router lemmas -/

/-- Successful descents of `find_node` through the trie, together with the
parameters they capture, listed in left-to-right pattern order. -/
inductive Descends : Node → List Str → List (Str × Str) → Nat → Prop where
  | term {n : Node} {id : Nat} : Node.handler n = some id → Descends n [] [] id
  | stat {n : Node} {seg : Str} {rest : List Str} {c : Node} {cs : List (Str × Str)} {id : Nat} :
      lookupChild (Node.children n) seg = some c →
      Descends c rest cs id → Descends n (seg :: rest) cs id
  | par {n : Node} {seg : Str} {rest : List Str} {pc : Str × Node} {cs : List (Str × Str)} {id : Nat} :
      Node.paramChild n = some pc →
      Descends pc.2 rest cs id → Descends n (seg :: rest) ((pc.1, seg) :: cs) id
  | wild {n : Node} {seg : Str} {rest : List Str} {wc : Str × Nat} :
      Node.wildcardChild n = some wc →
      Descends n (seg :: rest) [(wc.1, joinSlash (seg :: rest))] wc.2

/-- A pattern segment on which the two `insert_node` implementations agree:
if it starts with `*` it is exactly the bare `"*"`. -/
def tameSeg (s : Str) : Prop := s.head? = some '*' → s = ['*']

instance : DecidablePred tameSeg := fun s => by unfold tameSeg; infer_instance

/-- A route-registration script: `(method, pattern, handler_id)` triples
applied left to right. -/
def applyG (ops : List (Str × Str × Nat)) : Trees :=
  ops.foldl (fun r op => insertG r op.1 op.2.1 op.2.2) []

/-- The same script applied to the serve-core router. -/
def applyS (ops : List (Str × Str × Nat)) : Trees :=
  ops.foldl (fun r op => insertS r op.1 op.2.1 op.2.2) []

/-! ## Claim theorems: router -/

/-! ## Claim theorems: parser -/

/-- The end-to-end example request buffer from the spec. -/
def e2eBuf : List Nat :=
  strBytes "GET /users/42?active=true HTTP/1.1\r\nHost: x\r\nAccept: */*\r\n\r\n"

/-- A request with 65 single-letter headers followed by the blank line. -/
def buf65 : List Nat :=
  strBytes "GET / HTTP/1.1\r\n" ++ (List.replicate 65 (strBytes "a: b\r\n")).flatten ++
    strBytes "\r\n"

/-- The 65 header quadruples of `buf65` as the uncapped parse records them. -/
def hsU65 : List HQuad :=
  (List.range 65).map (fun i => (16 + 6 * i, 17 + 6 * i, 19 + 6 * i, 20 + 6 * i))

/-- The uncapped parse result of `buf65`. -/
def rU65 : ParsedRequest := ⟨1, .get, 4, 5, 0, 0, 65, 408⟩

/-! ## Lemmas and claim theorems -/

/-- A position found by `findIdxAux` is ahead of the start, satisfies the
predicate, and everything before it refutes the predicate. -/
theorem findIdxAux_some {p : Nat → Bool} : ∀ (l : List Nat) (i j : Nat),
    findIdxAux p l i = some j →
    i ≤ j ∧ (∃ b, l.get? (j - i) = some b ∧ p b = true) ∧
      ∀ k, k < j - i → ∃ b, l.get? k = some b ∧ p b = false := by
  intro l
  induction l with
  | nil => intro i j h; simp [findIdxAux] at h
  | cons b bs ih =>
    intro i j h
    simp only [findIdxAux] at h
    by_cases hp : p b
    · rw [if_pos hp] at h
      have hij : i = j := by simpa using h
      subst hij
      refine ⟨le_refl i, ⟨b, by simp, hp⟩, ?_⟩
      intro k hk
      omega
    · rw [if_neg hp] at h
      obtain ⟨h1, ⟨b2, hb2, hpb⟩, hall⟩ := ih (i + 1) j h
      refine ⟨by omega, ⟨b2, ?_, hpb⟩, ?_⟩
      · have : j - i = (j - (i + 1)) + 1 := by omega
        rw [this]
        simpa using hb2
      · intro k hk
        cases k with
        | zero => exact ⟨b, by simp, by simpa using hp⟩
        | succ k2 =>
          obtain ⟨b3, hb3, hpb3⟩ := hall k2 (by omega)
          exact ⟨b3, by simpa using hb3, hpb3⟩

/-- `findIdxAux` returning nothing refutes the predicate everywhere. -/
theorem findIdxAux_none {p : Nat → Bool} : ∀ (l : List Nat) (i : Nat),
    findIdxAux p l i = none → ∀ k, k < l.length → ∃ b, l.get? k = some b ∧ p b = false := by
  intro l
  induction l with
  | nil => intro i _ k hk; simp at hk
  | cons b bs ih =>
    intro i h k hk
    simp only [findIdxAux] at h
    by_cases hp : p b
    · rw [if_pos hp] at h; cases h
    · rw [if_neg hp] at h
      cases k with
      | zero => exact ⟨b, by simp, by simpa using hp⟩
      | succ k2 =>
        obtain ⟨b3, hb3, hpb3⟩ := ih (i + 1) h k2 (by simpa using hk)
        exact ⟨b3, by simpa using hb3, hpb3⟩

/-- Characterization of a successful `memchr`: first matching byte at or
after `pos`. -/
theorem memchrFrom_some {p : Nat → Bool} {buf : List Nat} {pos j : Nat}
    (h : memchrFrom p buf pos = some j) :
    pos ≤ j ∧ j < buf.length ∧ (∃ b, buf.get? j = some b ∧ p b = true) ∧
      ∀ k, pos ≤ k → k < j → ∃ b, buf.get? k = some b ∧ p b = false := by
  unfold memchrFrom at h
  obtain ⟨h1, ⟨b, hb, hpb⟩, hall⟩ := findIdxAux_some (buf.drop pos) pos j h
  rw [List.get?_drop] at hb
  have hjlen : j < buf.length := by
    have := (List.get?_eq_some.mp (show buf.get? (pos + (j - pos)) = some b from hb)).choose
    omega
  refine ⟨h1, hjlen, ⟨b, ?_, hpb⟩, ?_⟩
  · have : pos + (j - pos) = j := by omega
    rwa [this] at hb
  · intro k hk1 hk2
    obtain ⟨b2, hb2, hpb2⟩ := hall (k - pos) (by omega)
    rw [List.get?_drop] at hb2
    have : pos + (k - pos) = k := by omega
    rw [this] at hb2
    exact ⟨b2, hb2, hpb2⟩

/-- Characterization of a failed `memchr`: no matching byte from `pos` on. -/
theorem memchrFrom_none {p : Nat → Bool} {buf : List Nat} {pos : Nat}
    (h : memchrFrom p buf pos = none) :
    ∀ k, pos ≤ k → k < buf.length → ∃ b, buf.get? k = some b ∧ p b = false := by
  unfold memchrFrom at h
  intro k hk1 hk2
  obtain ⟨b, hb, hpb⟩ := findIdxAux_none (buf.drop pos) pos h (k - pos)
    (by rw [List.length_drop]; omega)
  rw [List.get?_drop] at hb
  have : pos + (k - pos) = k := by omega
  rw [this] at hb
  exact ⟨b, hb, hpb⟩

/-- The leading whitespace run is no longer than the list. -/
theorem wsLen_le_length : ∀ l : List Nat, wsLen l ≤ l.length := by
  intro l
  induction l with
  | nil => simp [wsLen]
  | cons b bs ih =>
    simp only [wsLen]
    by_cases h : isWsByte b
    · rw [if_pos h]; simpa using ih
    · rw [if_neg h]; simp

/-- Everything inside the leading whitespace run is whitespace. -/
theorem wsLen_ws : ∀ (l : List Nat) (k : Nat), k < wsLen l →
    ∃ b, l.get? k = some b ∧ isWsByte b = true := by
  intro l
  induction l with
  | nil => intro k hk; simp [wsLen] at hk
  | cons b bs ih =>
    intro k hk
    simp only [wsLen] at hk
    by_cases h : isWsByte b
    · rw [if_pos h] at hk
      cases k with
      | zero => exact ⟨b, by simp, h⟩
      | succ k2 =>
        obtain ⟨b2, hb2, hw⟩ := ih k2 (by omega)
        exact ⟨b2, by simpa using hb2, hw⟩
    · rw [if_neg h] at hk; omega

/-- The byte after the leading whitespace run (if any) is not whitespace. -/
theorem wsLen_stop : ∀ l : List Nat, wsLen l < l.length →
    ∃ b, l.get? (wsLen l) = some b ∧ isWsByte b = false := by
  intro l
  induction l with
  | nil => intro h; simp at h
  | cons b bs ih =>
    intro h
    simp only [wsLen] at h ⊢
    by_cases hw : isWsByte b
    · rw [if_pos hw] at h ⊢
      obtain ⟨b2, hb2, hs⟩ := ih (by simpa using h)
      exact ⟨b2, by simpa using hb2, hs⟩
    · rw [if_neg hw] at h ⊢
      exact ⟨b, by simp, by simpa using hw⟩

/-- `skipWs` never moves backwards. -/
theorem skipWs_ge (buf : List Nat) (pos : Nat) : pos ≤ skipWs buf pos := by
  simp [skipWs]

/-- `skipWs` stays within the buffer when it starts within it. -/
theorem skipWs_le {buf : List Nat} {pos : Nat} (h : pos ≤ buf.length) :
    skipWs buf pos ≤ buf.length := by
  have := wsLen_le_length (buf.drop pos)
  rw [List.length_drop] at this
  simp only [skipWs]
  omega

/-- Bytes skipped by `skipWs` are whitespace. -/
theorem skipWs_ws {buf : List Nat} {pos : Nat} :
    ∀ k, pos ≤ k → k < skipWs buf pos → ∃ b, buf.get? k = some b ∧ isWsByte b = true := by
  intro k hk1 hk2
  simp only [skipWs] at hk2
  obtain ⟨b, hb, hw⟩ := wsLen_ws (buf.drop pos) (k - pos) (by omega)
  rw [List.get?_drop] at hb
  have : pos + (k - pos) = k := by omega
  rw [this] at hb
  exact ⟨b, hb, hw⟩

/-- The byte at `skipWs` (when in bounds) is not whitespace. -/
theorem skipWs_stop {buf : List Nat} {pos : Nat} (h : skipWs buf pos < buf.length) :
    ∃ b, buf.get? (skipWs buf pos) = some b ∧ isWsByte b = false := by
  have hlt : wsLen (buf.drop pos) < (buf.drop pos).length := by
    rw [List.length_drop]
    simp only [skipWs] at h
    omega
  obtain ⟨b, hb, hs⟩ := wsLen_stop (buf.drop pos) hlt
  rw [List.get?_drop] at hb
  exact ⟨b, by simpa [skipWs] using hb, hs⟩

/-- One-step reduction of the scan at an in-range index. -/
theorem scanPQ_succ_some {buf : List Nat} {L fuel i pe qs qe b : Nat}
    (hiL : i < L) (hg : buf.get? i = some b) :
    scanPQ buf L (fuel + 1) i pe qs qe =
      if b = 32 then (if qs = 0 then some (i, qs, qe, true) else some (pe, qs, i, true))
      else if b = 63 ∧ qs = 0 then scanPQ buf L fuel (i + 1) i (i + 1) qe
      else scanPQ buf L fuel (i + 1) pe qs qe := by
  simp only [scanPQ, if_pos hiL, hg]

/-- The request-line scan cannot read out of bounds when the line end is
within the buffer. -/
theorem scanPQ_ne_none {buf : List Nat} {L : Nat} (hL : L ≤ buf.length) :
    ∀ (fuel i pe qs qe : Nat), scanPQ buf L fuel i pe qs qe ≠ none := by
  intro fuel
  induction fuel with
  | zero => intro i pe qs qe; simp [scanPQ]
  | succ fuel ih =>
    intro i pe qs qe
    by_cases hiL : i < L
    · cases hg : buf.get? i with
      | none =>
        rw [List.get?_eq_none] at hg
        omega
      | some b =>
        rw [scanPQ_succ_some hiL hg]
        by_cases hb32 : b = 32
        · rw [if_pos hb32]
          by_cases hqs : qs = 0
          · rw [if_pos hqs]; simp
          · rw [if_neg hqs]; simp
        · rw [if_neg hb32]
          by_cases hq : b = 63 ∧ qs = 0
          · rw [if_pos hq]; exact ih (i + 1) i (i + 1) qe
          · rw [if_neg hq]; exact ih (i + 1) pe qs qe
    · simp [scanPQ, if_neg hiL]

/-- If no space occurs in `[i, L)`, the scan reports `found_space = false`. -/
theorem scanPQ_no_space {buf : List Nat} {L : Nat} :
    ∀ (fuel i pe qs qe : Nat),
      (∀ k, i ≤ k → k < L → buf.get? k ≠ some 32) →
      ∀ r, scanPQ buf L fuel i pe qs qe = some r → r.2.2.2 = false := by
  intro fuel
  induction fuel with
  | zero =>
    intro i pe qs qe _ r h
    simp only [scanPQ] at h
    rw [← Option.some_inj.mp h]
  | succ fuel ih =>
    intro i pe qs qe hno r h
    by_cases hiL : i < L
    · cases hg : buf.get? i with
      | none =>
        simp only [scanPQ, if_pos hiL, hg] at h
        exact Option.noConfusion h
      | some b =>
        rw [scanPQ_succ_some hiL hg] at h
        by_cases hb32 : b = 32
        · exact absurd (hb32 ▸ hg) (hno i (le_refl i) hiL)
        · rw [if_neg hb32] at h
          by_cases hq : b = 63 ∧ qs = 0
          · rw [if_pos hq] at h
            exact ih (i + 1) i (i + 1) qe (fun k hk1 hk2 => hno k (by omega) hk2) r h
          · rw [if_neg hq] at h
            exact ih (i + 1) pe qs qe (fun k hk1 hk2 => hno k (by omega) hk2) r h
    · simp only [scanPQ, if_neg hiL] at h
      rw [← Option.some_inj.mp h]

/-- Phase B of the scan (a query is already open, `qs ≠ 0`): the scan is a
pure search for the first space, which becomes `query_end`. -/
theorem scanPQ_phaseB {buf : List Nat} {L : Nat} :
    ∀ (fuel i pe0 qs0 qe0 pe2 qs2 qe2 : Nat), qs0 ≠ 0 →
      scanPQ buf L fuel i pe0 qs0 qe0 = some (pe2, qs2, qe2, true) →
      pe2 = pe0 ∧ qs2 = qs0 ∧ i ≤ qe2 ∧ qe2 < L ∧ buf.get? qe2 = some 32 ∧
        ∀ k, i ≤ k → k < qe2 → ∃ b, buf.get? k = some b ∧ b ≠ 32 := by
  intro fuel
  induction fuel with
  | zero =>
    intro i pe0 qs0 qe0 pe2 qs2 qe2 _ h
    simp [scanPQ] at h
  | succ fuel ih =>
    intro i pe0 qs0 qe0 pe2 qs2 qe2 hqs h
    by_cases hiL : i < L
    · cases hg : buf.get? i with
      | none =>
        simp only [scanPQ, if_pos hiL, hg] at h
        exact Option.noConfusion h
      | some b =>
        rw [scanPQ_succ_some hiL hg] at h
        by_cases hb32 : b = 32
        · rw [if_pos hb32, if_neg hqs] at h
          simp only [Option.some_inj, Prod.mk.injEq] at h
          obtain ⟨e1, e2, e3, _⟩ := h
          refine ⟨e1.symm, e2.symm, by omega, by omega, ?_, ?_⟩
          · rw [← e3]
            exact hb32 ▸ hg
          · intro k hk1 hk2
            omega
        · rw [if_neg hb32] at h
          have hq : ¬(b = 63 ∧ qs0 = 0) := fun hc => hqs hc.2
          rw [if_neg hq] at h
          obtain ⟨g1, g2, g3, g4, g5, g6⟩ := ih (i + 1) pe0 qs0 qe0 pe2 qs2 qe2 hqs h
          refine ⟨g1, g2, by omega, g4, g5, ?_⟩
          intro k hk1 hk2
          rcases Nat.eq_or_lt_of_le hk1 with he | hlt
          · exact ⟨b, he ▸ hg, hb32⟩
          · exact g6 k (by omega) hk2
    · simp only [scanPQ, if_neg hiL] at h
      simp at h

/-- Phase A of the scan (no query open yet): either a space is found first
(no query: `path_end` is the first space) or a `?` is found first
(`path_end` is the `?`, `query_start` is the byte after it, and `query_end`
is the first later space). -/
theorem scanPQ_phaseA {buf : List Nat} {L : Nat} :
    ∀ (fuel i pe0 pe2 qs2 qe2 : Nat),
      scanPQ buf L fuel i pe0 0 0 = some (pe2, qs2, qe2, true) →
      (qs2 = 0 ∧ i ≤ pe2 ∧ pe2 < L ∧ buf.get? pe2 = some 32 ∧
        ∀ k, i ≤ k → k < pe2 → ∃ b, buf.get? k = some b ∧ b ≠ 32 ∧ b ≠ 63) ∨
      (∃ q, i ≤ q ∧ q < L ∧ buf.get? q = some 63 ∧ pe2 = q ∧ qs2 = q + 1 ∧
        (∀ k, i ≤ k → k < q → ∃ b, buf.get? k = some b ∧ b ≠ 32 ∧ b ≠ 63) ∧
        q + 1 ≤ qe2 ∧ qe2 < L ∧ buf.get? qe2 = some 32 ∧
        ∀ k, q + 1 ≤ k → k < qe2 → ∃ b, buf.get? k = some b ∧ b ≠ 32) := by
  intro fuel
  induction fuel with
  | zero =>
    intro i pe0 pe2 qs2 qe2 h
    simp [scanPQ] at h
  | succ fuel ih =>
    intro i pe0 pe2 qs2 qe2 h
    by_cases hiL : i < L
    · cases hg : buf.get? i with
      | none =>
        simp only [scanPQ, if_pos hiL, hg] at h
        exact Option.noConfusion h
      | some b =>
        rw [scanPQ_succ_some hiL hg] at h
        by_cases hb32 : b = 32
        · rw [if_pos hb32, if_pos rfl] at h
          simp only [Option.some_inj, Prod.mk.injEq] at h
          obtain ⟨e1, e2, e3, _⟩ := h
          left
          refine ⟨e2.symm, by omega, by omega, by rw [← e1]; exact hb32 ▸ hg, ?_⟩
          intro k hk1 hk2
          omega
        · rw [if_neg hb32] at h
          by_cases hb63 : b = 63
          · rw [if_pos ⟨hb63, rfl⟩] at h
            obtain ⟨g1, g2, g3, g4, g5, g6⟩ :=
              scanPQ_phaseB fuel (i + 1) i (i + 1) 0 pe2 qs2 qe2 (by omega) h
            right
            refine ⟨i, le_refl i, hiL, hb63 ▸ hg, g1, g2, ?_, by omega, g4, g5, g6⟩
            intro k hk1 hk2
            omega
          · rw [if_neg (fun hc => hb63 hc.1)] at h
            rcases ih (i + 1) pe0 pe2 qs2 qe2 h with
              ⟨e1, e2, e3, e4, e5⟩ | ⟨q, g1, g2, g3, g4, g5, g6, g7, g8, g9, g10⟩
            · left
              refine ⟨e1, by omega, e3, e4, ?_⟩
              intro k hk1 hk2
              rcases Nat.eq_or_lt_of_le hk1 with he | hlt
              · exact ⟨b, he ▸ hg, hb32, hb63⟩
              · exact e5 k (by omega) hk2
            · right
              refine ⟨q, by omega, g2, g3, g4, g5, ?_, g7, g8, g9, g10⟩
              intro k hk1 hk2
              rcases Nat.eq_or_lt_of_le hk1 with he | hlt
              · exact ⟨b, he ▸ hg, hb32, hb63⟩
              · exact g6 k (by omega) hk2
    · simp only [scanPQ, if_neg hiL] at h
      simp at h

/-- Decomposition of a successful `headerLine` call into its `memchr`
results. -/
theorem headerLine_cases {buf : List Nat} {pos pos2 : Nat} {hs hs2 : List HQuad}
    (h : headerLine buf pos hs = some (pos2, hs2)) :
    ∃ colon lineEnd,
      memchrFrom (fun b => b = 58) buf pos = some colon ∧
      memchrFrom (fun b => b = 13 || b = 10) buf (skipWs buf (colon + 1)) = some lineEnd ∧
      hs2 = (if hs.length < MAX_HEADERS then
               hs ++ [(pos, colon, skipWs buf (colon + 1), lineEnd)] else hs) ∧
      pos2 = (if buf.get? (if buf.get? lineEnd = some 13 then lineEnd + 1 else lineEnd) = some 10
              then (if buf.get? lineEnd = some 13 then lineEnd + 1 else lineEnd) + 1
              else (if buf.get? lineEnd = some 13 then lineEnd + 1 else lineEnd)) := by
  cases hc : memchrFrom (fun b => b = 58) buf pos with
  | none =>
    simp only [headerLine, hc] at h
    exact Option.noConfusion h
  | some colon =>
    cases hl : memchrFrom (fun b => b = 13 || b = 10) buf (skipWs buf (colon + 1)) with
    | none =>
      simp only [headerLine, hc, hl] at h
      exact Option.noConfusion h
    | some lineEnd =>
      simp only [headerLine, hc, hl, Option.some_inj, Prod.mk.injEq] at h
      exact ⟨colon, lineEnd, rfl, hl, h.2.symm, h.1.symm⟩

/-- A successful `headerLine` strictly advances the cursor and keeps it in
bounds. -/
theorem headerLine_step {buf : List Nat} {pos pos2 : Nat} {hs hs2 : List HQuad}
    (h : headerLine buf pos hs = some (pos2, hs2)) :
    pos < pos2 ∧ pos2 ≤ buf.length := by
  obtain ⟨colon, lineEnd, hc, hl, _, hp2⟩ := headerLine_cases h
  obtain ⟨hc1, hc2, _, _⟩ := memchrFrom_some hc
  obtain ⟨hl1, hl2, _, _⟩ := memchrFrom_some hl
  have hws := skipWs_ge buf (colon + 1)
  by_cases h13 : buf.get? lineEnd = some 13
  · rw [if_pos h13] at hp2
    by_cases h10 : buf.get? (lineEnd + 1) = some 10
    · rw [if_pos h10] at hp2
      have := (List.get?_eq_some.mp h10).choose
      omega
    · rw [if_neg h10] at hp2
      omega
  · rw [if_neg h13] at hp2
    by_cases h10 : buf.get? lineEnd = some 10
    · rw [if_pos h10] at hp2
      omega
    · rw [if_neg h10] at hp2
      omega

/-- A successful `headerLine` either drops the header (cap reached) or
appends one quadruple satisfying the offset invariant, starting at the
cursor. -/
theorem headerLine_good {buf : List Nat} {pos pos2 : Nat} {hs hs2 : List HQuad}
    (h : headerLine buf pos hs = some (pos2, hs2)) :
    (hs2 = hs ∧ MAX_HEADERS ≤ hs.length) ∨
      ∃ q, hs2 = hs ++ [q] ∧ hs.length < MAX_HEADERS ∧ q.1 = pos ∧ goodQuad buf q := by
  obtain ⟨colon, lineEnd, hc, hl, hh, _⟩ := headerLine_cases h
  obtain ⟨hc1, hc2, ⟨bc, hbc, hbcp⟩, hcall⟩ := memchrFrom_some hc
  obtain ⟨hl1, hl2, ⟨bl, hbl, hblp⟩, hlall⟩ := memchrFrom_some hl
  by_cases hcap : hs.length < MAX_HEADERS
  · rw [if_pos hcap] at hh
    right
    refine ⟨(pos, colon, skipWs buf (colon + 1), lineEnd), hh, hcap, rfl, ?_⟩
    have hws := skipWs_ge buf (colon + 1)
    unfold goodQuad
    dsimp only
    refine ⟨hc1, by omega, hl1, hl2, ?_, ?_, ?_, ?_, ?_⟩
    · simp only [decide_eq_true_eq] at hbcp
      rw [hbcp] at hbc
      exact hbc
    · intro k hk1 hk2
      obtain ⟨b, hb, hbp⟩ := hcall k hk1 hk2
      refine ⟨b, hb, ?_⟩
      simpa using hbp
    · intro k hk1 hk2
      exact skipWs_ws k hk1 hk2
    · intro k hk1 hk2
      obtain ⟨b, hb, hbp⟩ := hlall k hk1 hk2
      refine ⟨b, hb, ?_⟩
      simp only [Bool.or_eq_false_iff, decide_eq_false_iff_not] at hbp
      exact hbp
    · refine ⟨bl, hbl, ?_⟩
      simp only [Bool.or_eq_true, decide_eq_true_eq] at hblp
      exact hblp
  · rw [if_neg hcap] at hh
    exact Or.inl ⟨hh, by omega⟩

/-- One-step reduction of the header loop at an in-range cursor. -/
theorem parseHeadersF_succ {buf : List Nat} {fuel pos : Nat} {hs : List HQuad} {b0 : Nat}
    (hlt : pos < buf.length) (hg : buf.get? pos = some b0) :
    parseHeadersF buf (fuel + 1) pos hs =
      if b0 = 13 then
        (if pos + 1 ≥ buf.length then some none
         else
           match buf.get? (pos + 1) with
           | none => none
           | some b1 =>
             if b1 = 10 then some (some (pos + 2, hs))
             else
               match headerLine buf pos hs with
               | none => some none
               | some (pos2, hs2) => parseHeadersF buf fuel pos2 hs2)
      else if b0 = 10 then some (some (pos + 1, hs))
      else
        match headerLine buf pos hs with
        | none => some none
        | some (pos2, hs2) => parseHeadersF buf fuel pos2 hs2 := by
  simp only [parseHeadersF, if_neg (by omega : ¬pos ≥ buf.length), hg]

/-- The header loop cannot read out of bounds nor exhaust its fuel when it
starts inside the buffer with enough fuel. -/
theorem parseHeadersF_ne_none {buf : List Nat} :
    ∀ (fuel pos : Nat) (hs : List HQuad), pos ≤ buf.length →
      buf.length + 1 ≤ fuel + pos → parseHeadersF buf fuel pos hs ≠ none := by
  intro fuel
  induction fuel with
  | zero =>
    intro pos hs h1 h2
    exfalso
    omega
  | succ fuel ih =>
    intro pos hs h1 h2
    by_cases hge : pos ≥ buf.length
    · simp [parseHeadersF, if_pos hge]
    · cases hg : buf.get? pos with
      | none =>
        rw [List.get?_eq_none] at hg
        exfalso
        omega
      | some b0 =>
        rw [parseHeadersF_succ (by omega) hg]
        by_cases h13 : b0 = 13
        · simp only [if_pos h13]
          by_cases hp1 : pos + 1 ≥ buf.length
          · simp [if_pos hp1]
          · simp only [if_neg hp1]
            cases hg1 : buf.get? (pos + 1) with
            | none =>
              rw [List.get?_eq_none] at hg1
              exfalso
              omega
            | some b1 =>
              by_cases h10 : b1 = 10
              · simp [hg1, if_pos h10]
              · simp only [hg1, if_neg h10]
                cases hhl : headerLine buf pos hs with
                | none => simp
                | some pr =>
                  obtain ⟨pos2, hs2⟩ := pr
                  obtain ⟨hst1, hst2⟩ := headerLine_step hhl
                  simp only
                  exact ih pos2 hs2 hst2 (by omega)
        · simp only [if_neg h13]
          by_cases h10 : b0 = 10
          · simp [if_pos h10]
          · simp only [if_neg h10]
            cases hhl : headerLine buf pos hs with
            | none => simp
            | some pr =>
              obtain ⟨pos2, hs2⟩ := pr
              obtain ⟨hst1, hst2⟩ := headerLine_step hhl
              simp only
              exact ih pos2 hs2 hst2 (by omega)

/-- When the header loop completes (blank line reached), every recorded
quadruple satisfies the offset invariant, at most `MAX_HEADERS` are
recorded, and the body offset is within the buffer. -/
theorem parseHeadersF_complete {buf : List Nat} :
    ∀ (fuel pos : Nat) (hs : List HQuad) (body : Nat) (hs2 : List HQuad),
      parseHeadersF buf fuel pos hs = some (some (body, hs2)) →
      (∀ q ∈ hs, goodQuad buf q) →
      (∀ q ∈ hs2, goodQuad buf q) ∧ hs2.length ≤ max hs.length MAX_HEADERS ∧
        body ≤ buf.length := by
  intro fuel
  induction fuel with
  | zero =>
    intro pos hs body hs2 h _
    exact Option.noConfusion h
  | succ fuel ih =>
    intro pos hs body hs2 h hgood
    by_cases hge : pos ≥ buf.length
    · simp only [parseHeadersF, if_pos hge] at h
      exact Option.noConfusion (Option.some_inj.mp h)
    · cases hg : buf.get? pos with
      | none =>
        simp only [parseHeadersF, if_neg hge, hg] at h
        exact Option.noConfusion h
      | some b0 =>
        have hplen : pos < buf.length := (List.get?_eq_some.mp hg).choose
        rw [parseHeadersF_succ hplen hg] at h
        by_cases h13 : b0 = 13
        · simp only [if_pos h13] at h
          by_cases hp1 : pos + 1 ≥ buf.length
          · simp only [if_pos hp1] at h
            exact Option.noConfusion (Option.some_inj.mp h)
          · simp only [if_neg hp1] at h
            cases hg1 : buf.get? (pos + 1) with
            | none =>
              simp only [hg1] at h
              exact Option.noConfusion h
            | some b1 =>
              by_cases h10 : b1 = 10
              · simp only [hg1, if_pos h10, Option.some_inj, Prod.mk.injEq] at h
                obtain ⟨hb, hh⟩ := h
                refine ⟨hh ▸ hgood, ?_, ?_⟩
                · rw [← hh]
                  exact le_max_left _ _
                · omega
              · simp only [hg1, if_neg h10] at h
                cases hhl : headerLine buf pos hs with
                | none =>
                  simp only [hhl] at h
                  exact Option.noConfusion (Option.some_inj.mp h)
                | some pr =>
                  obtain ⟨pos2, hs3⟩ := pr
                  simp only [hhl] at h
                  rcases headerLine_good hhl with ⟨he, _⟩ | ⟨q, he, hlen, _, hq⟩
                  · obtain ⟨g1, g2, g3⟩ := ih pos2 hs3 body hs2 h (he ▸ hgood)
                    rw [he] at g2
                    exact ⟨g1, g2, g3⟩
                  · have hgood3 : ∀ p ∈ hs3, goodQuad buf p := by
                      intro p hp
                      rw [he] at hp
                      rcases List.mem_append.mp hp with hp1 | hp2
                      · exact hgood p hp1
                      · rw [List.mem_singleton.mp hp2]
                        exact hq
                    obtain ⟨g1, g2, g3⟩ := ih pos2 hs3 body hs2 h hgood3
                    refine ⟨g1, ?_, g3⟩
                    have hl3 : hs3.length = hs.length + 1 := by rw [he]; simp
                    have hmx : hs3.length ⊔ MAX_HEADERS = MAX_HEADERS := by
                      rw [hl3]
                      exact max_eq_right (by omega)
                    rw [hmx] at g2
                    exact g2.trans (le_max_right _ _)
        · simp only [if_neg h13] at h
          by_cases h10 : b0 = 10
          · simp only [if_pos h10, Option.some_inj, Prod.mk.injEq] at h
            obtain ⟨hb, hh⟩ := h
            refine ⟨hh ▸ hgood, ?_, ?_⟩
            · rw [← hh]
              exact le_max_left _ _
            · omega
          · simp only [if_neg h10] at h
            cases hhl : headerLine buf pos hs with
            | none =>
              simp only [hhl] at h
              exact Option.noConfusion (Option.some_inj.mp h)
            | some pr =>
              obtain ⟨pos2, hs3⟩ := pr
              simp only [hhl] at h
              rcases headerLine_good hhl with ⟨he, _⟩ | ⟨q, he, hlen, _, hq⟩
              · obtain ⟨g1, g2, g3⟩ := ih pos2 hs3 body hs2 h (he ▸ hgood)
                rw [he] at g2
                exact ⟨g1, g2, g3⟩
              · have hgood3 : ∀ p ∈ hs3, goodQuad buf p := by
                  intro p hp
                  rw [he] at hp
                  rcases List.mem_append.mp hp with hp1 | hp2
                  · exact hgood p hp1
                  · rw [List.mem_singleton.mp hp2]
                    exact hq
                obtain ⟨g1, g2, g3⟩ := ih pos2 hs3 body hs2 h hgood3
                refine ⟨g1, ?_, g3⟩
                have hl3 : hs3.length = hs.length + 1 := by rw [he]; simp
                have hmx : hs3.length ⊔ MAX_HEADERS = MAX_HEADERS := by
                  rw [hl3]
                  exact max_eq_right (by omega)
                rw [hmx] at g2
                exact g2.trans (le_max_right _ _)

/-- The capped header line is the uncapped one with the recorded list
truncated to `MAX_HEADERS`; the cursor is unaffected by the cap. -/
theorem headerLine_cap {buf : List Nat} {pos : Nat} (hsU : List HQuad) :
    headerLine buf pos (hsU.take MAX_HEADERS) =
      (headerLineU buf pos hsU).map (fun r => (r.1, r.2.take MAX_HEADERS)) := by
  cases hc : memchrFrom (fun b => b = 58) buf pos with
  | none => simp [headerLine, headerLineU, hc]
  | some colon =>
    cases hl : memchrFrom (fun b => b = 13 || b = 10) buf (skipWs buf (colon + 1)) with
    | none => simp [headerLine, headerLineU, hc, hl]
    | some lineEnd =>
      simp only [headerLine, headerLineU, hc, hl, Option.map_some', Option.some_inj,
        Prod.mk.injEq]
      refine ⟨trivial, ?_⟩
      by_cases hlen : hsU.length < MAX_HEADERS
      · rw [if_pos (by rw [List.length_take]; omega)]
        rw [List.take_of_length_le (by omega),
          List.take_of_length_le (by rw [List.length_append, List.length_singleton]; omega)]
      · rw [if_neg (by rw [List.length_take]; omega)]
        rw [List.take_append_of_le_length (by omega)]

/-- The capped header loop is the uncapped one with the recorded list
truncated to `MAX_HEADERS`; the final cursor (body offset) is unaffected. -/
theorem parseHeaders_cap {buf : List Nat} :
    ∀ (fuel pos : Nat) (hsU : List HQuad),
      parseHeadersF buf fuel pos (hsU.take MAX_HEADERS) =
        (parseHeadersU buf fuel pos hsU).map
          (Option.map (fun r => (r.1, r.2.take MAX_HEADERS))) := by
  intro fuel
  induction fuel with
  | zero => intro pos hsU; rfl
  | succ fuel ih =>
    intro pos hsU
    by_cases hge : pos ≥ buf.length
    · simp [parseHeadersF, parseHeadersU, if_pos hge]
    · cases hg : buf.get? pos with
      | none =>
        simp only [parseHeadersF, parseHeadersU, if_neg hge, hg]
        rfl
      | some b0 =>
        simp only [parseHeadersF, parseHeadersU, if_neg hge, hg]
        by_cases h13 : b0 = 13
        · simp only [if_pos h13]
          by_cases hp1 : pos + 1 ≥ buf.length
          · simp [if_pos hp1]
          · simp only [if_neg hp1]
            cases hg1 : buf.get? (pos + 1) with
            | none => simp
            | some b1 =>
              by_cases h10 : b1 = 10
              · simp [if_pos h10]
              · simp only [if_neg h10]
                rw [headerLine_cap hsU]
                cases hhl : headerLineU buf pos hsU with
                | none => simp
                | some pr =>
                  obtain ⟨pos2, hs2⟩ := pr
                  simp only [Option.map_some']
                  exact ih pos2 hs2
        · simp only [if_neg h13]
          by_cases h10 : b0 = 10
          · simp [if_pos h10]
          · simp only [if_neg h10]
            rw [headerLine_cap hsU]
            cases hhl : headerLineU buf pos hsU with
            | none => simp
            | some pr =>
              obtain ⟨pos2, hs2⟩ := pr
              simp only [Option.map_some']
              exact ih pos2 hs2

/-- `parse_request` never reads out of bounds (and the fuel given to the
header loop never runs out): the `Option` panic layer is never `none`, the
returned state is one of 0, 1, 2, and at most `MAX_HEADERS` quadruples are
ever written to the output array. -/
theorem parseO_total : ∀ buf : List Nat,
    ∃ r hs, parseO buf = some (r, hs) ∧ r.state ≤ 2 ∧ hs.length ≤ MAX_HEADERS := by
  intro buf
  by_cases h18 : buf.length < 18
  · refine ⟨⟨0, .get, 0, 0, 0, 0, 0, 0⟩, [], ?_, by decide, by decide⟩
    simp only [parseO, if_pos h18]
    rfl
  · cases hm : memchrFrom (fun b => b = 32) buf 0 with
    | none =>
      refine ⟨⟨0, .get, 0, 0, 0, 0, 0, 0⟩, [], ?_, by decide, by decide⟩
      simp only [parseO, if_neg h18, hm]
      rfl
    | some me =>
      by_cases h8 : me < 8
      · cases hmp : Method.parse (buf.take me) with
        | none =>
          refine ⟨⟨2, .get, 0, 0, 0, 0, 0, 0⟩, [], ?_, by decide, by decide⟩
          simp only [parseO, if_neg h18, hm, if_pos h8, hmp]
          rfl
        | some m =>
          cases hle : memchrFrom (fun b => b = 13 || b = 10) buf (me + 1) with
          | none =>
            refine ⟨⟨0, m, me + 1, 0, 0, 0, 0, 0⟩, [], ?_, by simp, by decide⟩
            simp only [parseO, if_neg h18, hm, if_pos h8, hmp, hle]
            rfl
          | some lineEnd =>
            obtain ⟨hle1, hle2, _, _⟩ := memchrFrom_some hle
            cases hsc : scanPQ buf lineEnd (lineEnd - (me + 1)) (me + 1) (me + 1) 0 0 with
            | none => exact absurd hsc (scanPQ_ne_none (by omega) _ _ _ _ _)
            | some sres =>
              obtain ⟨pe, qs, qe, found⟩ := sres
              cases found with
              | false =>
                refine ⟨⟨0, m, me + 1, 0, 0, 0, 0, 0⟩, [], ?_, by simp, by decide⟩
                simp only [parseO, if_neg h18, hm, if_pos h8, hmp, hle, hsc,
                  eq_self_iff_true, if_true]
                rfl
              | true =>
                by_cases hl1 : lineEnd + 1 ≥ buf.length
                · refine ⟨⟨0, m, me + 1, pe, qs, qe, 0, 0⟩, [], ?_, by simp, by decide⟩
                  simp only [parseO, if_neg h18, hm, if_pos h8, hmp, hle, hsc,
                    Bool.true_eq_false, if_false, if_pos hl1]
                  rfl
                · cases hgl : buf.get? lineEnd with
                  | none =>
                    rw [List.get?_eq_none] at hgl
                    exact absurd hgl (by omega)
                  | some b =>
                    cases hph : parseHeadersF buf (buf.length + 1)
                        (if b = 13 then lineEnd + 2 else lineEnd + 1) [] with
                    | none =>
                      refine absurd hph (parseHeadersF_ne_none _ _ _ ?_ ?_)
                      · by_cases hb13 : b = 13
                        · rw [if_pos hb13]; omega
                        · rw [if_neg hb13]; omega
                      · by_cases hb13 : b = 13
                        · rw [if_pos hb13]; omega
                        · rw [if_neg hb13]; omega
                    | some phr =>
                      cases phr with
                      | none =>
                        refine ⟨⟨0, m, me + 1, pe, qs, qe, 0, 0⟩, [], ?_, by simp,
                          by decide⟩
                        simp only [parseO, if_neg h18, hm, if_pos h8, hmp, hle, hsc,
                          Bool.true_eq_false, if_false, if_neg hl1, hgl, hph]
                        rfl
                      | some bh =>
                        obtain ⟨body, hs⟩ := bh
                        obtain ⟨_, hlen, _⟩ := parseHeadersF_complete _ _ [] body hs hph
                          (by intro q hq; cases hq)
                        refine ⟨⟨1, m, me + 1, pe, qs, qe, hs.length, body⟩, hs, ?_,
                          by simp, by simpa using hlen⟩
                        simp only [parseO, if_neg h18, hm, if_pos h8, hmp, hle, hsc,
                          Bool.true_eq_false, if_false, if_neg hl1, hgl, hph]
      · refine ⟨⟨0, .get, 0, 0, 0, 0, 0, 0⟩, [], ?_, by decide, by decide⟩
        simp only [parseO, if_neg h18, hm, if_neg h8]
        rfl

/-- Characterization of a `Complete` parse: every reported offset range is
ordered and in bounds, and the buffer bytes around each range pin the path,
query, and header slices to exactly the corresponding request text. -/
theorem parseO_complete_spec {buf : List Nat} {r : ParsedRequest} {hs : List HQuad}
    (hp : parseO buf = some (r, hs)) (hst : r.state = 1) :
    r.path_start ≤ r.path_end ∧ r.path_end < buf.length ∧
    1 ≤ r.path_start ∧ buf.get? (r.path_start - 1) = some 32 ∧
    (∀ k, r.path_start ≤ k → k < r.path_end →
      ∃ b, buf.get? k = some b ∧ b ≠ 32 ∧ b ≠ 63 ∧ b ≠ 13 ∧ b ≠ 10) ∧
    (r.query_start = 0 → buf.get? r.path_end = some 32) ∧
    (r.query_start ≠ 0 →
      buf.get? r.path_end = some 63 ∧ r.query_start = r.path_end + 1 ∧
      r.query_start ≤ r.query_end ∧ r.query_end < buf.length ∧
      buf.get? r.query_end = some 32 ∧
      (∀ k, r.query_start ≤ k → k < r.query_end →
        ∃ b, buf.get? k = some b ∧ b ≠ 32 ∧ b ≠ 13 ∧ b ≠ 10)) ∧
    r.headers_count = hs.length ∧ (∀ q ∈ hs, goodQuad buf q) ∧
    r.body_start ≤ buf.length := by
  by_cases h18 : buf.length < 18
  · simp only [parseO, if_pos h18, Option.some_inj, Prod.mk.injEq] at hp
    rw [← hp.1] at hst
    simp at hst
  · cases hm : memchrFrom (fun b => b = 32) buf 0 with
    | none =>
      simp only [parseO, if_neg h18, hm, Option.some_inj, Prod.mk.injEq] at hp
      rw [← hp.1] at hst
      simp at hst
    | some me =>
      obtain ⟨_, hme2, ⟨bme, hbme, hbmep⟩, _⟩ := memchrFrom_some hm
      by_cases h8 : me < 8
      · cases hmp : Method.parse (buf.take me) with
        | none =>
          simp only [parseO, if_neg h18, hm, if_pos h8, hmp, Option.some_inj,
            Prod.mk.injEq] at hp
          rw [← hp.1] at hst
          simp at hst
        | some m =>
          cases hle : memchrFrom (fun b => b = 13 || b = 10) buf (me + 1) with
          | none =>
            simp only [parseO, if_neg h18, hm, if_pos h8, hmp, hle, Option.some_inj,
              Prod.mk.injEq] at hp
            rw [← hp.1] at hst
            simp at hst
          | some lineEnd =>
            obtain ⟨hle1, hle2, _, hlall⟩ := memchrFrom_some hle
            cases hsc : scanPQ buf lineEnd (lineEnd - (me + 1)) (me + 1) (me + 1) 0 0 with
            | none => exact absurd hsc (scanPQ_ne_none (by omega) _ _ _ _ _)
            | some sres =>
              obtain ⟨pe, qs, qe, found⟩ := sres
              cases found with
              | false =>
                simp only [parseO, if_neg h18, hm, if_pos h8, hmp, hle, hsc,
                  eq_self_iff_true, if_true, Option.some_inj, Prod.mk.injEq] at hp
                rw [← hp.1] at hst
                simp at hst
              | true =>
                by_cases hl1 : lineEnd + 1 ≥ buf.length
                · simp only [parseO, if_neg h18, hm, if_pos h8, hmp, hle, hsc,
                    Bool.true_eq_false, if_false, if_pos hl1, Option.some_inj,
                    Prod.mk.injEq] at hp
                  rw [← hp.1] at hst
                  simp at hst
                · cases hgl : buf.get? lineEnd with
                  | none =>
                    rw [List.get?_eq_none] at hgl
                    exact absurd hgl (by omega)
                  | some b =>
                    cases hph : parseHeadersF buf (buf.length + 1)
                        (if b = 13 then lineEnd + 2 else lineEnd + 1) [] with
                    | none =>
                      refine absurd hph (parseHeadersF_ne_none _ _ _ ?_ ?_)
                      · by_cases hb13 : b = 13
                        · rw [if_pos hb13]; omega
                        · rw [if_neg hb13]; omega
                      · by_cases hb13 : b = 13
                        · rw [if_pos hb13]; omega
                        · rw [if_neg hb13]; omega
                    | some phr =>
                      cases phr with
                      | none =>
                        simp only [parseO, if_neg h18, hm, if_pos h8, hmp, hle, hsc,
                          Bool.true_eq_false, if_false, if_neg hl1, hgl, hph,
                          Option.some_inj, Prod.mk.injEq] at hp
                        rw [← hp.1] at hst
                        simp at hst
                      | some bh =>
                        obtain ⟨body, hs2⟩ := bh
                        obtain ⟨hgood, _, hbody⟩ := parseHeadersF_complete _ _ [] body hs2
                          hph (by intro q hq; cases hq)
                        simp only [parseO, if_neg h18, hm, if_pos h8, hmp, hle, hsc,
                          Bool.true_eq_false, if_false, if_neg hl1, hgl, hph,
                          Option.some_inj, Prod.mk.injEq] at hp
                        obtain ⟨hr, hhs⟩ := hp
                        rw [← hr, ← hhs]
                        simp only
                        have hbme32 : buf.get? me = some 32 := by
                          simp only [decide_eq_true_eq] at hbmep
                          rw [hbmep] at hbme
                          exact hbme
                        rcases scanPQ_phaseA (lineEnd - (me + 1)) (me + 1) (me + 1) pe qs qe
                            hsc with
                          ⟨e1, e2, e3, e4, e5⟩ | ⟨q, g1, g2, g3, g4, g5, g6, g7, g8, g9, g10⟩
                        · refine ⟨by omega, by omega, by omega, by simpa using hbme32,
                            ?_, ?_, ?_, trivial, hgood, hbody⟩
                          · intro k hk1 hk2
                            obtain ⟨b2, hb2, hb2a, hb2b⟩ := e5 k hk1 hk2
                            obtain ⟨b3, hb3, hb3p⟩ := hlall k hk1 (by omega)
                            rw [hb2] at hb3
                            obtain rfl := Option.some_inj.mp hb3
                            simp only [Bool.or_eq_false_iff, decide_eq_false_iff_not] at hb3p
                            exact ⟨b2, hb2, hb2a, hb2b, hb3p.1, hb3p.2⟩
                          · intro _
                            exact e4
                          · intro hq0
                            exact absurd e1 hq0
                        · refine ⟨by omega, by omega, by omega, by simpa using hbme32,
                            ?_, ?_, ?_, trivial, hgood, hbody⟩
                          · intro k hk1 hk2
                            obtain ⟨b2, hb2, hb2a, hb2b⟩ := g6 k hk1 (by omega)
                            obtain ⟨b3, hb3, hb3p⟩ := hlall k hk1 (by omega)
                            rw [hb2] at hb3
                            obtain rfl := Option.some_inj.mp hb3
                            simp only [Bool.or_eq_false_iff, decide_eq_false_iff_not] at hb3p
                            exact ⟨b2, hb2, hb2a, hb2b, hb3p.1, hb3p.2⟩
                          · intro hq0
                            exfalso
                            omega
                          · intro _
                            refine ⟨g4 ▸ g3, by omega, by omega, by omega, g9, ?_⟩
                            intro k hk1 hk2
                            obtain ⟨b2, hb2, hb2a⟩ := g10 k (by omega) hk2
                            obtain ⟨b3, hb3, hb3p⟩ := hlall k (by omega) (by omega)
                            rw [hb2] at hb3
                            obtain rfl := Option.some_inj.mp hb3
                            simp only [Bool.or_eq_false_iff, decide_eq_false_iff_not] at hb3p
                            exact ⟨b2, hb2, hb2a, hb3p.1, hb3p.2⟩
      · simp only [parseO, if_neg h18, hm, if_neg h8, Option.some_inj, Prod.mk.injEq] at hp
        rw [← hp.1] at hst
        simp at hst

/-- A `Complete` uncapped parse determines the capped (real) parse: only the
recorded header list is truncated to `MAX_HEADERS` (and the count with it);
every other field, including `body_start`, is unchanged. -/
theorem parseOU_capped {buf : List Nat} {rU : ParsedRequest} {hsU : List HQuad}
    (hp : parseOU buf = some (rU, hsU)) (hst : rU.state = 1) :
    parseO buf = some ({ rU with headers_count := (hsU.take MAX_HEADERS).length },
      hsU.take MAX_HEADERS) := by
  by_cases h18 : buf.length < 18
  · simp only [parseOU, if_pos h18, Option.some_inj, Prod.mk.injEq] at hp
    rw [← hp.1] at hst
    simp at hst
  · cases hm : memchrFrom (fun b => b = 32) buf 0 with
    | none =>
      simp only [parseOU, if_neg h18, hm, Option.some_inj, Prod.mk.injEq] at hp
      rw [← hp.1] at hst
      simp at hst
    | some me =>
      by_cases h8 : me < 8
      · cases hmp : Method.parse (buf.take me) with
        | none =>
          simp only [parseOU, if_neg h18, hm, if_pos h8, hmp, Option.some_inj,
            Prod.mk.injEq] at hp
          rw [← hp.1] at hst
          simp at hst
        | some m =>
          cases hle : memchrFrom (fun b => b = 13 || b = 10) buf (me + 1) with
          | none =>
            simp only [parseOU, if_neg h18, hm, if_pos h8, hmp, hle, Option.some_inj,
              Prod.mk.injEq] at hp
            rw [← hp.1] at hst
            simp at hst
          | some lineEnd =>
            obtain ⟨hle1, hle2, _, _⟩ := memchrFrom_some hle
            cases hsc : scanPQ buf lineEnd (lineEnd - (me + 1)) (me + 1) (me + 1) 0 0 with
            | none => exact absurd hsc (scanPQ_ne_none (by omega) _ _ _ _ _)
            | some sres =>
              obtain ⟨pe, qs, qe, found⟩ := sres
              cases found with
              | false =>
                simp only [parseOU, if_neg h18, hm, if_pos h8, hmp, hle, hsc,
                  eq_self_iff_true, if_true, Option.some_inj, Prod.mk.injEq] at hp
                rw [← hp.1] at hst
                simp at hst
              | true =>
                by_cases hl1 : lineEnd + 1 ≥ buf.length
                · simp only [parseOU, if_neg h18, hm, if_pos h8, hmp, hle, hsc,
                    Bool.true_eq_false, if_false, if_pos hl1, Option.some_inj,
                    Prod.mk.injEq] at hp
                  rw [← hp.1] at hst
                  simp at hst
                · cases hgl : buf.get? lineEnd with
                  | none =>
                    rw [List.get?_eq_none] at hgl
                    exact absurd hgl (by omega)
                  | some b =>
                    have hcap := @parseHeaders_cap buf (buf.length + 1)
                      (if b = 13 then lineEnd + 2 else lineEnd + 1) []
                    rw [List.take_nil] at hcap
                    cases hph : parseHeadersU buf (buf.length + 1)
                        (if b = 13 then lineEnd + 2 else lineEnd + 1) [] with
                    | none =>
                      simp only [parseOU, if_neg h18, hm, if_pos h8, hmp, hle, hsc,
                        Bool.true_eq_false, if_false, if_neg hl1, hgl, hph] at hp
                      exact Option.noConfusion hp
                    | some phr =>
                      rw [hph] at hcap
                      cases phr with
                      | none =>
                        simp only [parseOU, if_neg h18, hm, if_pos h8, hmp, hle, hsc,
                          Bool.true_eq_false, if_false, if_neg hl1, hgl, hph,
                          Option.some_inj, Prod.mk.injEq] at hp
                        rw [← hp.1] at hst
                        simp at hst
                      | some bh =>
                        obtain ⟨body, hs2⟩ := bh
                        simp only [Option.map_some', Option.map_none'] at hcap
                        simp only [parseOU, if_neg h18, hm, if_pos h8, hmp, hle, hsc,
                          Bool.true_eq_false, if_false, if_neg hl1, hgl, hph,
                          Option.some_inj, Prod.mk.injEq] at hp
                        obtain ⟨hr, hhs⟩ := hp
                        simp only [parseO, if_neg h18, hm, if_pos h8, hmp, hle, hsc,
                          Bool.true_eq_false, if_false, if_neg hl1, hgl, hcap,
                          Option.some_inj, Prod.mk.injEq]
                        rw [← hr, ← hhs]
                        exact ⟨rfl, rfl⟩
      · simp only [parseOU, if_neg h18, hm, if_neg h8, Option.some_inj, Prod.mk.injEq] at hp
        rw [← hp.1] at hst
        simp at hst

/-- Characterization of one `find_node` step at a non-empty segment list, as
an explicit cascade of the three stages.  `S1` is the static stage, `S2` the
param stage (with its backtracking `pop`), and the wildcard stage last. -/
theorem findNode_cons (n : Node) (seg : Str) (rest : List Str) (ps : List (Str × Str)) :
    findNode n (seg :: rest) ps =
      (match (match lookupChild (Node.children n) seg with
              | none => (none, ps)
              | some child => findNode child rest ps) with
       | (some m, ps1) => (some m, ps1)
       | (none, ps1) =>
         (match (match Node.paramChild n with
                 | none => (none, ps1)
                 | some pc =>
                   match findNode pc.2 rest (ps1 ++ [(pc.1, seg)]) with
                   | (some m, ps2) => (some m, ps2)
                   | (none, ps2) => (none, ps2.dropLast)) with
          | (some m, ps2) => (some m, ps2)
          | (none, ps2) =>
            match Node.wildcardChild n with
            | none => (none, ps2)
            | some wc =>
              (some { handler_id := wc.2, params := ps2 ++ [(wc.1, joinSlash (seg :: rest))] },
               ps2 ++ [(wc.1, joinSlash (seg :: rest))]))) := by
  simp only [findNode]

/-- Backtracking frame: a failed `find_node` call leaves the params buffer
exactly as it found it. -/
theorem findNode_none_frame : ∀ (segs : List Str) (n : Node) (ps : List (Str × Str)),
    (findNode n segs ps).1 = none → (findNode n segs ps).2 = ps := by
  intro segs
  induction segs with
  | nil =>
    intro n ps _
    simp [findNode]
  | cons seg rest ih =>
    intro n ps h
    rw [findNode_cons] at h ⊢
    cases hc : lookupChild (Node.children n) seg with
    | none =>
      simp only [hc] at h ⊢
      cases hp : Node.paramChild n with
      | none =>
        simp only [hp] at h ⊢
        cases hw : Node.wildcardChild n with
        | none => simp [hw]
        | some wc => simp [hw] at h
      | some pc =>
        simp only [hp] at h ⊢
        rcases hfp : findNode pc.2 rest (ps ++ [(pc.1, seg)]) with ⟨om, ps2⟩
        simp only [hfp] at h ⊢
        cases om with
        | some m => simp at h
        | none =>
          have hps2 : ps2 = ps ++ [(pc.1, seg)] := by
            have := ih pc.2 (ps ++ [(pc.1, seg)]) (by rw [hfp])
            rw [hfp] at this
            exact this
          rw [hps2] at h ⊢
          cases hw : Node.wildcardChild n with
          | none => simp [hw, List.dropLast_concat]
          | some wc => simp [hw] at h
    | some child =>
      simp only [hc] at h ⊢
      rcases hf : findNode child rest ps with ⟨om1, ps1⟩
      simp only [hf] at h ⊢
      cases om1 with
      | some m => simp at h
      | none =>
        have hps1 : ps1 = ps := by
          have := ih child ps (by rw [hf])
          rw [hf] at this
          exact this
        rw [hps1] at h ⊢
        cases hp : Node.paramChild n with
        | none =>
          simp only [hp] at h ⊢
          cases hw : Node.wildcardChild n with
          | none => simp [hw]
          | some wc => simp [hw] at h
        | some pc =>
          simp only [hp] at h ⊢
          rcases hfp : findNode pc.2 rest (ps ++ [(pc.1, seg)]) with ⟨om2, ps2⟩
          simp only [hfp] at h ⊢
          cases om2 with
          | some m => simp at h
          | none =>
            have hps2 : ps2 = ps ++ [(pc.1, seg)] := by
              have := ih pc.2 (ps ++ [(pc.1, seg)]) (by rw [hfp])
              rw [hfp] at this
              exact this
            rw [hps2] at h ⊢
            cases hw : Node.wildcardChild n with
            | none => simp [hw, List.dropLast_concat]
            | some wc => simp [hw] at h

/-- A successful `find_node` call returns the incoming buffer extended with
exactly the captures of one successful descent, in pattern order. -/
theorem findNode_some_descends : ∀ (segs : List Str) (n : Node) (ps : List (Str × Str))
    (m : RouteMatch), (findNode n segs ps).1 = some m →
    ∃ cs, m.params = ps ++ cs ∧ Descends n segs cs m.handler_id := by
  intro segs
  induction segs with
  | nil =>
    intro n ps m h
    simp only [findNode] at h
    cases hh : Node.handler n with
    | none => simp [hh] at h
    | some id =>
      refine ⟨[], ?_, ?_⟩
      · simp [hh] at h
        simp [← h]
      · simp [hh] at h
        rw [← h]
        exact Descends.term hh
  | cons seg rest ih =>
    intro n ps m h
    rw [findNode_cons] at h
    cases hc : lookupChild (Node.children n) seg with
    | some child =>
      simp only [hc] at h
      rcases hf : findNode child rest ps with ⟨om1, ps1⟩
      simp only [hf] at h
      cases om1 with
      | some m1 =>
        simp at h
        obtain ⟨cs, hcs, hd⟩ := ih child ps m1 (by rw [hf])
        exact ⟨cs, by rw [← h]; exact hcs, by rw [← h]; exact Descends.stat hc hd⟩
      | none =>
        have hps1 : ps1 = ps := by
          have := findNode_none_frame rest child ps (by rw [hf])
          rw [hf] at this
          exact this
        rw [hps1] at h
        cases hp : Node.paramChild n with
        | some pc =>
          simp only [hp] at h
          rcases hfp : findNode pc.2 rest (ps ++ [(pc.1, seg)]) with ⟨om2, ps2⟩
          simp only [hfp] at h
          cases om2 with
          | some m2 =>
            simp at h
            obtain ⟨cs, hcs, hd⟩ := ih pc.2 (ps ++ [(pc.1, seg)]) m2 (by rw [hfp])
            refine ⟨(pc.1, seg) :: cs, ?_, ?_⟩
            · rw [← h]; rw [hcs]; simp
            · rw [← h]; exact Descends.par hp hd
          | none =>
            have hps2 : ps2 = ps ++ [(pc.1, seg)] := by
              have := findNode_none_frame rest pc.2 (ps ++ [(pc.1, seg)]) (by rw [hfp])
              rw [hfp] at this
              exact this
            rw [hps2] at h
            cases hw : Node.wildcardChild n with
            | none => simp [hw] at h
            | some wc =>
              simp only [hw, List.dropLast_concat] at h
              simp at h
              refine ⟨[(wc.1, joinSlash (seg :: rest))], ?_, ?_⟩
              · rw [← h]
              · rw [← h]
                exact Descends.wild hw
        | none =>
          simp only [hp] at h
          cases hw : Node.wildcardChild n with
          | none => simp [hw] at h
          | some wc =>
            simp only [hw] at h
            simp at h
            refine ⟨[(wc.1, joinSlash (seg :: rest))], ?_, ?_⟩
            · rw [← h]
            · rw [← h]
              exact Descends.wild hw
    | none =>
      simp only [hc] at h
      cases hp : Node.paramChild n with
      | some pc =>
        simp only [hp] at h
        rcases hfp : findNode pc.2 rest (ps ++ [(pc.1, seg)]) with ⟨om2, ps2⟩
        simp only [hfp] at h
        cases om2 with
        | some m2 =>
          simp at h
          obtain ⟨cs, hcs, hd⟩ := ih pc.2 (ps ++ [(pc.1, seg)]) m2 (by rw [hfp])
          refine ⟨(pc.1, seg) :: cs, ?_, ?_⟩
          · rw [← h]; rw [hcs]; simp
          · rw [← h]; exact Descends.par hp hd
        | none =>
          have hps2 : ps2 = ps ++ [(pc.1, seg)] := by
            have := findNode_none_frame rest pc.2 (ps ++ [(pc.1, seg)]) (by rw [hfp])
            rw [hfp] at this
            exact this
          rw [hps2] at h
          cases hw : Node.wildcardChild n with
          | none => simp [hw] at h
          | some wc =>
            simp only [hw, List.dropLast_concat] at h
            simp at h
            refine ⟨[(wc.1, joinSlash (seg :: rest))], ?_, ?_⟩
            · rw [← h]
            · rw [← h]
              exact Descends.wild hw
      | none =>
        simp only [hp] at h
        cases hw : Node.wildcardChild n with
        | none => simp [hw] at h
        | some wc =>
          simp only [hw] at h
          simp at h
          refine ⟨[(wc.1, joinSlash (seg :: rest))], ?_, ?_⟩
          · rw [← h]
          · rw [← h]
            exact Descends.wild hw

/-- Stage 1 of the `find_node` priority cascade: a successful descent through
the exact static child is returned, regardless of param/wildcard children. -/
theorem findNode_static_first {n : Node} {seg : Str} {rest : List Str}
    {ps : List (Str × Str)} {child : Node} {m : RouteMatch} :
    lookupChild (Node.children n) seg = some child →
    (findNode child rest ps).1 = some m →
    (findNode n (seg :: rest) ps).1 = some m := by
  intro hc hf
  rw [findNode_cons]
  rcases hfe : findNode child rest ps with ⟨om, ps1⟩
  rw [hfe] at hf
  simp at hf
  simp [hc, hfe, hf]

/-- Stage 2 of the cascade: when the static alternative fails, a successful
descent through the parameter child (with the current segment bound under
the parameter's name) is returned, regardless of a wildcard child. -/
theorem findNode_param_second {n : Node} {seg : Str} {rest : List Str}
    {ps : List (Str × Str)} {pc : Str × Node} {m : RouteMatch} :
    (∀ c, lookupChild (Node.children n) seg = some c → (findNode c rest ps).1 = none) →
    Node.paramChild n = some pc →
    (findNode pc.2 rest (ps ++ [(pc.1, seg)])).1 = some m →
    (findNode n (seg :: rest) ps).1 = some m := by
  intro hst hp hf
  rw [findNode_cons]
  rcases hfe : findNode pc.2 rest (ps ++ [(pc.1, seg)]) with ⟨om, ps2⟩
  rw [hfe] at hf
  simp at hf
  cases hc : lookupChild (Node.children n) seg with
  | none => simp [hc, hp, hfe, hf]
  | some child =>
    have hn := hst child hc
    have hfr : findNode child rest ps = (none, ps) := by
      have h2 := findNode_none_frame rest child ps hn
      rcases hfc : findNode child rest ps with ⟨om1, ps1⟩
      rw [hfc] at hn h2
      simp at hn h2
      rw [hn, h2]
    simp [hc, hfr, hp, hfe, hf]

/-- Stage 3 of the cascade: when both the static and the parameter
alternatives fail, a wildcard child matches, capturing the remaining
segments rejoined with `/`. -/
theorem findNode_wildcard_last {n : Node} {seg : Str} {rest : List Str}
    {ps : List (Str × Str)} {wc : Str × Nat} :
    (∀ c, lookupChild (Node.children n) seg = some c → (findNode c rest ps).1 = none) →
    (∀ pc, Node.paramChild n = some pc → (findNode pc.2 rest (ps ++ [(pc.1, seg)])).1 = none) →
    Node.wildcardChild n = some wc →
    (findNode n (seg :: rest) ps).1 =
      some { handler_id := wc.2, params := ps ++ [(wc.1, joinSlash (seg :: rest))] } := by
  intro hst hpr hw
  rw [findNode_cons]
  have hstatic : (match lookupChild (Node.children n) seg with
      | none => ((none : Option RouteMatch), ps)
      | some child => findNode child rest ps) = (none, ps) := by
    cases hc : lookupChild (Node.children n) seg with
    | none => simp
    | some child =>
      have hn := hst child hc
      have h2 := findNode_none_frame rest child ps hn
      rcases hfc : findNode child rest ps with ⟨om1, ps1⟩
      rw [hfc] at hn h2
      simp at hn h2
      simp [hfc, hn, h2]
  rw [hstatic]
  have hparam : (match Node.paramChild n with
      | none => ((none : Option RouteMatch), ps)
      | some pc =>
        match findNode pc.2 rest (ps ++ [(pc.1, seg)]) with
        | (some m, ps2) => (some m, ps2)
        | (none, ps2) => (none, ps2.dropLast)) = (none, ps) := by
    cases hp : Node.paramChild n with
    | none => simp
    | some pc =>
      have hn := hpr pc hp
      have h2 := findNode_none_frame rest pc.2 (ps ++ [(pc.1, seg)]) hn
      rcases hfe : findNode pc.2 rest (ps ++ [(pc.1, seg)]) with ⟨om2, ps2⟩
      rw [hfe] at hn h2
      simp at hn h2
      simp [hfe, hn, h2, List.dropLast_concat]
  simp only [hparam, hw]

/-- `split('/')` never yields the empty list of segments. -/
theorem splitSlash_ne_nil (cs : List Char) : splitSlash cs ≠ [] := by
  cases cs with
  | nil => simp [splitSlash]
  | cons c cs2 =>
    simp only [splitSlash]
    by_cases h : c = '/'
    · simp [h]
    · simp only [h, if_false]
      cases hs : splitSlash cs2 <;> simp

/-- Splitting at an explicit slash splits the concatenation. -/
theorem splitSlash_append_slash (l1 l2 : List Char) :
    splitSlash (l1 ++ '/' :: l2) = splitSlash l1 ++ splitSlash l2 := by
  induction l1 with
  | nil => simp [splitSlash]
  | cons c l1 ih =>
    by_cases h : c = '/'
    · simp [splitSlash, h, ih]
    · simp only [List.cons_append, splitSlash, h, if_false, List.append_eq]
      rw [ih]
      cases hs : splitSlash l1 with
      | nil => exact absurd hs (splitSlash_ne_nil l1)
      | cons s ss => simp

/-- A leading slash does not change the filtered segments. -/
theorem segsOf_cons_slash (p : Str) : segsOf ('/' :: p) = segsOf p := by
  simp [segsOf, splitSlash]

/-- A trailing slash does not change the filtered segments. -/
theorem segsOf_append_slash (p : Str) : segsOf (p ++ ['/']) = segsOf p := by
  have h : splitSlash (p ++ '/' :: []) = splitSlash p ++ splitSlash [] := splitSlash_append_slash p []
  simp only [segsOf, h, splitSlash, List.filter_append]
  simp

/-- Doubling an existing slash does not change the filtered segments. -/
theorem segsOf_double_slash (l1 l2 : List Char) :
    segsOf (l1 ++ '/' :: '/' :: l2) = segsOf (l1 ++ '/' :: l2) := by
  have h1 : splitSlash (l1 ++ '/' :: ('/' :: l2)) = splitSlash l1 ++ splitSlash ('/' :: l2) :=
    splitSlash_append_slash l1 ('/' :: l2)
  have h2 : splitSlash (l1 ++ '/' :: l2) = splitSlash l1 ++ splitSlash l2 :=
    splitSlash_append_slash l1 l2
  simp only [segsOf, h1, h2, splitSlash, List.filter_append]
  simp

/-- `find` depends on the path only through its filtered segments. -/
theorem findR_segs_congr (r : Trees) (method : Str) {p1 p2 : Str} (h : segsOf p1 = segsOf p2) :
    findR r method p1 = findR r method p2 := by
  simp [findR, h]

/-- gust-router `insert` depends on the path only through its filtered
segments. -/
theorem insertG_segs_congr (r : Trees) (method : Str) (hid : Nat) {p1 p2 : Str}
    (h : segsOf p1 = segsOf p2) : insertG r method p1 hid = insertG r method p2 hid := by
  simp [insertG, h]

/-- serve-core `insert` depends on the path only through its filtered
segments. -/
theorem insertS_segs_congr (r : Trees) (method : Str) (hid : Nat) {p1 p2 : Str}
    (h : segsOf p1 = segsOf p2) : insertS r method p1 hid = insertS r method p2 hid := by
  simp [insertS, h]

/-- On segment lists whose starred segments are all the bare `"*"`, the two
`insert_node` implementations build identical tries. -/
theorem insertNode_agree : ∀ (segs : List Str) (n : Node) (h : Nat),
    (∀ s ∈ segs, tameSeg s) → insertNodeG n segs h = insertNodeS n segs h := by
  intro segs
  induction segs with
  | nil => intro n h _; cases n; rfl
  | cons seg rest ih =>
    intro n h hok
    have hrest : ∀ s ∈ rest, tameSeg s := fun s hs => hok s (List.mem_cons_of_mem _ hs)
    cases n with
    | mk c p w hd =>
      simp only [insertNodeG, insertNodeS]
      by_cases hcol : seg.head? = some ':'
      · simp [hcol, ih _ h hrest]
      · by_cases hstar : seg.head? = some '*'
        · have hbare : seg = ['*'] := hok seg (List.mem_cons_self _ _) hstar
          simp [hcol, hstar, hbare]
        · have hne : ¬(seg = ['*']) := by
            intro he
            rw [he] at hstar
            exact hstar rfl
          simp [hcol, hstar, hne, ih _ h hrest]

/-- Tree-level agreement of the two `insert` implementations on tame
patterns. -/
theorem insert_agree (r : Trees) (method path : Str) (h : Nat)
    (hok : ∀ s ∈ segsOf path, tameSeg s) : insertG r method path h = insertS r method path h := by
  simp only [insertG, insertS]
  rw [insertNode_agree _ _ _ hok]

theorem apply_agree_aux : ∀ (ops : List (Str × Str × Nat)) (r : Trees),
    (∀ op ∈ ops, ∀ s ∈ segsOf op.2.1, tameSeg s) →
    ops.foldl (fun r op => insertG r op.1 op.2.1 op.2.2) r =
      ops.foldl (fun r op => insertS r op.1 op.2.1 op.2.2) r := by
  intro ops
  induction ops with
  | nil => intro r _; rfl
  | cons op rest ih =>
    intro r hok
    simp only [List.foldl_cons]
    rw [insert_agree r op.1 op.2.1 op.2.2 (hok op (List.mem_cons_self _ _))]
    exact ih _ (fun o ho => hok o (List.mem_cons_of_mem _ ho))

/-- C1: `find` tries the alternatives at each trie node in strict order —
exact static child first, then parameter child (with backtracking), then
wildcard child — returning the first success; with `/users/:id` (handler a)
and `/users/me` (handler b) registered under GET, `find("GET", "/users/me")`
returns handler b, and `find("GET", "/users/123")` returns handler a with
params `[("id", "123")]` (in both router implementations). -/
theorem c1_find_priority_order :
    (∀ (n : Node) (seg : Str) (rest : List Str) (ps : List (Str × Str)) (child : Node)
        (m : RouteMatch),
        lookupChild (Node.children n) seg = some child →
        (findNode child rest ps).1 = some m →
        (findNode n (seg :: rest) ps).1 = some m) ∧
    (∀ (n : Node) (seg : Str) (rest : List Str) (ps : List (Str × Str)) (pc : Str × Node)
        (m : RouteMatch),
        (∀ c, lookupChild (Node.children n) seg = some c → (findNode c rest ps).1 = none) →
        Node.paramChild n = some pc →
        (findNode pc.2 rest (ps ++ [(pc.1, seg)])).1 = some m →
        (findNode n (seg :: rest) ps).1 = some m) ∧
    (∀ (n : Node) (seg : Str) (rest : List Str) (ps : List (Str × Str)) (wc : Str × Nat),
        (∀ c, lookupChild (Node.children n) seg = some c → (findNode c rest ps).1 = none) →
        (∀ pc, Node.paramChild n = some pc →
          (findNode pc.2 rest (ps ++ [(pc.1, seg)])).1 = none) →
        Node.wildcardChild n = some wc →
        (findNode n (seg :: rest) ps).1 =
          some { handler_id := wc.2, params := ps ++ [(wc.1, joinSlash (seg :: rest))] }) ∧
    (∀ a b : Nat,
        findR (insertG (insertG [] "GET".data "/users/:id".data a) "GET".data "/users/me".data b)
          "GET".data "/users/me".data = some { handler_id := b, params := [] } ∧
        findR (insertG (insertG [] "GET".data "/users/:id".data a) "GET".data "/users/me".data b)
          "GET".data "/users/123".data =
            some { handler_id := a, params := [("id".data, "123".data)] } ∧
        findR (insertS (insertS [] "GET".data "/users/:id".data a) "GET".data "/users/me".data b)
          "GET".data "/users/me".data = some { handler_id := b, params := [] } ∧
        findR (insertS (insertS [] "GET".data "/users/:id".data a) "GET".data "/users/me".data b)
          "GET".data "/users/123".data =
            some { handler_id := a, params := [("id".data, "123".data)] }) :=
  ⟨fun _ _ _ _ _ _ => findNode_static_first,
   fun _ _ _ _ _ _ => findNode_param_second,
   fun _ _ _ _ _ => findNode_wildcard_last,
   fun _ _ => ⟨rfl, rfl, rfl, rfl⟩⟩

/-- Witness for C1: the priority cascade applied at a concrete node where a
static child and a parameter child compete, and the concrete two-route
scenario at handlers 10 and 20. -/
theorem c1_find_priority_order_witness :
    (findNode (Node.mk [("me".data, Node.mk [] none none (some 2))]
        (some ("id".data, Node.mk [] none none (some 1))) none none) ["me".data] []).1 =
      some { handler_id := 2, params := [] } ∧
    findR (insertG (insertG [] "GET".data "/users/:id".data 10) "GET".data "/users/me".data 20)
      "GET".data "/users/me".data = some { handler_id := 20, params := [] } :=
  ⟨c1_find_priority_order.1 _ "me".data [] [] (Node.mk [] none none (some 2))
      { handler_id := 2, params := [] } rfl rfl,
   (c1_find_priority_order.2.2.2 10 20).1⟩

/-- C10: a failed descent restores the params buffer exactly (frame), and a
successful `find` returns exactly the captures of the matched route,
ordered left to right along the pattern. -/
theorem c10_backtracking_no_residue :
    (∀ (segs : List Str) (n : Node) (ps : List (Str × Str)),
        (findNode n segs ps).1 = none → (findNode n segs ps).2 = ps) ∧
    (∀ (r : Trees) (method path : Str) (m : RouteMatch),
        findR r method path = some m →
        ∃ tree, lookupChild r (upper method) = some tree ∧
          Descends tree (segsOf path) m.params m.handler_id) := by
  constructor
  · exact findNode_none_frame
  · intro r method path m h
    unfold findR at h
    cases ht : lookupChild r (upper method) with
    | none => rw [ht] at h; cases h
    | some tree =>
      rw [ht] at h
      obtain ⟨cs, hcs, hd⟩ := findNode_some_descends (segsOf path) tree [] m h
      simp at hcs
      exact ⟨tree, rfl, by rw [hcs]; exact hd⟩

/-- Witness for C10: the frame property at a concrete failing lookup, and
the capture characterization at a concrete one-parameter route. -/
theorem c10_backtracking_no_residue_witness :
    (findNode (Node.mk [] none none none) ["x".data] [("a".data, "b".data)]).2 =
      [("a".data, "b".data)] ∧
    (∃ tree, lookupChild (insertG [] "GET".data "/users/:id".data 5) (upper "GET".data) =
        some tree ∧
      Descends tree (segsOf "/users/7".data)
        (RouteMatch.params { handler_id := 5, params := [("id".data, "7".data)] })
        (RouteMatch.handler_id { handler_id := 5, params := [("id".data, "7".data)] })) :=
  ⟨c10_backtracking_no_residue.1 ["x".data] (Node.mk [] none none none)
      [("a".data, "b".data)] rfl,
   c10_backtracking_no_residue.2 (insertG [] "GET".data "/users/:id".data 5) "GET".data
      "/users/7".data { handler_id := 5, params := [("id".data, "7".data)] } rfl⟩

/-- C5 counterexample: in the serve-core router (one of the two
implementations the claim covers), inserting the pattern `/files/*path`
under GET and looking up `/files/docs/readme.md` yields no match at all —
`*path` is treated there as a literal static segment, so the claimed
`params == [("path", "docs/readme.md")]` fails. -/
theorem c5_wildcard_counterexample :
    findR (insertS [] "GET".data "/files/*path".data 1) "GET".data
      "/files/docs/readme.md".data = none := by decide

/-- C5 (amended): in the gust-router implementation a `*name` wildcard
segment captures all remaining path segments rejoined with `/` under the
binding `name` (generally, and concretely for `/files/*path`); in the
serve-core implementation only the bare `*` pattern segment is a wildcard,
bound under the literal key `"*"`. -/
theorem c5_wildcard_capture :
    (∀ (n : Node) (seg : Str) (rest : List Str) (ps : List (Str × Str)) (wc : Str × Nat),
        lookupChild (Node.children n) seg = none → Node.paramChild n = none →
        Node.wildcardChild n = some wc →
        (findNode n (seg :: rest) ps).1 =
          some { handler_id := wc.2, params := ps ++ [(wc.1, joinSlash (seg :: rest))] }) ∧
    findR (insertG [] "GET".data "/files/*path".data 1) "GET".data
      "/files/docs/readme.md".data =
      some { handler_id := 1, params := [("path".data, "docs/readme.md".data)] } ∧
    findR (insertG [] "GET".data "/static/*".data 1) "GET".data "/static/js/app.js".data =
      some { handler_id := 1, params := [("*".data, "js/app.js".data)] } ∧
    findR (insertS [] "GET".data "/static/*".data 1) "GET".data "/static/js/app.js".data =
      some { handler_id := 1, params := [("*".data, "js/app.js".data)] } := by
  refine ⟨?_, by decide, by decide, by decide⟩
  intro n seg rest ps wc hc hp hw
  exact findNode_wildcard_last
    (fun c h => by rw [hc] at h; cases h)
    (fun pc h => by rw [hp] at h; cases h) hw

/-- Witness for C5: the general wildcard-capture lemma applied at a concrete
node holding only a wildcard child. -/
theorem c5_wildcard_capture_witness :
    (findNode (Node.mk [] none (some ("path".data, 9)) none)
        ["docs".data, "readme.md".data] []).1 =
      some { handler_id := 9, params := [("path".data, "docs/readme.md".data)] } :=
  c5_wildcard_capture.1 (Node.mk [] none (some ("path".data, 9)) none)
    "docs".data ["readme.md".data] [] ("path".data, 9) rfl rfl rfl

/-- C6: `find` and both `insert`s are invariant under leading slashes,
trailing slashes, and doubled slashes, and the three spellings `/users`,
`/users/`, `//users//` are interchangeable for any router. -/
theorem c6_path_normalization :
    (∀ (r : Trees) (method : Str),
        findR r method "/users".data = findR r method "/users/".data ∧
        findR r method "/users".data = findR r method "//users//".data) ∧
    (∀ (r : Trees) (method p : Str), findR r method ('/' :: p) = findR r method p) ∧
    (∀ (r : Trees) (method p : Str), findR r method (p ++ ['/']) = findR r method p) ∧
    (∀ (r : Trees) (method l1 l2 : Str),
        findR r method (l1 ++ '/' :: '/' :: l2) = findR r method (l1 ++ '/' :: l2)) ∧
    (∀ (r : Trees) (method p : Str) (h : Nat),
        insertG r method ('/' :: p) h = insertG r method p h ∧
        insertG r method (p ++ ['/']) h = insertG r method p h ∧
        insertS r method ('/' :: p) h = insertS r method p h ∧
        insertS r method (p ++ ['/']) h = insertS r method p h) ∧
    (∀ (r : Trees) (method l1 l2 : Str) (h : Nat),
        insertG r method (l1 ++ '/' :: '/' :: l2) h = insertG r method (l1 ++ '/' :: l2) h ∧
        insertS r method (l1 ++ '/' :: '/' :: l2) h = insertS r method (l1 ++ '/' :: l2) h) := by
  refine ⟨?_, ?_, ?_, ?_, ?_, ?_⟩
  · intro r method
    exact ⟨findR_segs_congr r method (by decide), findR_segs_congr r method (by decide)⟩
  · intro r method p
    exact findR_segs_congr r method (segsOf_cons_slash p)
  · intro r method p
    exact findR_segs_congr r method (segsOf_append_slash p)
  · intro r method l1 l2
    exact findR_segs_congr r method (segsOf_double_slash l1 l2)
  · intro r method p h
    exact ⟨insertG_segs_congr r method h (segsOf_cons_slash p),
      insertG_segs_congr r method h (segsOf_append_slash p),
      insertS_segs_congr r method h (segsOf_cons_slash p),
      insertS_segs_congr r method h (segsOf_append_slash p)⟩
  · intro r method l1 l2 h
    exact ⟨insertG_segs_congr r method h (segsOf_double_slash l1 l2),
      insertS_segs_congr r method h (segsOf_double_slash l1 l2)⟩

/-- C8 counterexample: the same single `insert("GET", "/files/*path", 1)`
applied to both routers makes `find("GET", "/files/docs/readme.md")`
disagree — gust-router matches the named wildcard, serve-core returns
nothing. -/
theorem c8_equivalence_counterexample :
    findR (insertG [] "GET".data "/files/*path".data 1) "GET".data
        "/files/docs/readme.md".data ≠
      findR (insertS [] "GET".data "/files/*path".data 1) "GET".data
        "/files/docs/readme.md".data := by decide

/-- C8 (amended): the two router implementations are observationally
equivalent for every insertion script in which every pattern segment that
starts with `*` is exactly the bare `"*"`; on such scripts they build
identical trees, hence identical `find` results. -/
theorem c8_routers_agree_on_tame_patterns :
    ∀ ops : List (Str × Str × Nat),
      (∀ op ∈ ops, ∀ s ∈ segsOf op.2.1, tameSeg s) →
      applyG ops = applyS ops ∧
      ∀ method path, findR (applyG ops) method path = findR (applyS ops) method path := by
  intro ops hok
  have h := apply_agree_aux ops [] hok
  constructor
  · exact h
  · intro method path
    unfold applyG applyS
    rw [h]

/-- C2 counterexample: the buffer `"ABCDEFGH / HTTP/1.1\r\n\r\n"` has at
least 18 bytes, its leading token before the first space (at index 8) is not
one of the 9 method literals, yet `parse` returns state 0 (Incomplete), not
state 2 (Error): the space is searched only within the first 8 bytes. -/
theorem c2_unknown_method_counterexample :
    18 ≤ (strBytes "ABCDEFGH / HTTP/1.1\r\n\r\n").length ∧
    memchrFrom (fun b => b = 32) (strBytes "ABCDEFGH / HTTP/1.1\r\n\r\n") 0 = some 8 ∧
    Method.parse ((strBytes "ABCDEFGH / HTTP/1.1\r\n\r\n").take 8) = none ∧
    (parseO (strBytes "ABCDEFGH / HTTP/1.1\r\n\r\n")).map (fun p => p.1.state) = some 0 := by
  decide

/-- C2 (amended): each of the 9 method literals in `"<METHOD> / HTTP/1.1\r\n\r\n"`
parses to Complete with the matching method; a buffer of at least 18 bytes
whose first space is at an index below 8 with an unrecognized token before it
parses to Error; when the first space is at index 8 or beyond, or absent,
the parse is Incomplete instead. -/
theorem c2_method_exhaustiveness :
    ((parseO (strBytes "GET / HTTP/1.1\r\n\r\n")).map (fun p => (p.1.state, p.1.method)) =
        some (1, Method.get) ∧
      (parseO (strBytes "POST / HTTP/1.1\r\n\r\n")).map (fun p => (p.1.state, p.1.method)) =
        some (1, Method.post) ∧
      (parseO (strBytes "PUT / HTTP/1.1\r\n\r\n")).map (fun p => (p.1.state, p.1.method)) =
        some (1, Method.put) ∧
      (parseO (strBytes "DELETE / HTTP/1.1\r\n\r\n")).map (fun p => (p.1.state, p.1.method)) =
        some (1, Method.delete) ∧
      (parseO (strBytes "PATCH / HTTP/1.1\r\n\r\n")).map (fun p => (p.1.state, p.1.method)) =
        some (1, Method.patch) ∧
      (parseO (strBytes "HEAD / HTTP/1.1\r\n\r\n")).map (fun p => (p.1.state, p.1.method)) =
        some (1, Method.head) ∧
      (parseO (strBytes "OPTIONS / HTTP/1.1\r\n\r\n")).map (fun p => (p.1.state, p.1.method)) =
        some (1, Method.options) ∧
      (parseO (strBytes "CONNECT / HTTP/1.1\r\n\r\n")).map (fun p => (p.1.state, p.1.method)) =
        some (1, Method.connect) ∧
      (parseO (strBytes "TRACE / HTTP/1.1\r\n\r\n")).map (fun p => (p.1.state, p.1.method)) =
        some (1, Method.trace)) ∧
    (∀ (buf : List Nat) (i : Nat), 18 ≤ buf.length →
      memchrFrom (fun b => b = 32) buf 0 = some i → i < 8 →
      Method.parse (buf.take i) = none →
      ∃ r, parseO buf = some (r, []) ∧ r.state = 2) ∧
    (∀ (buf : List Nat) (i : Nat), 18 ≤ buf.length →
      memchrFrom (fun b => b = 32) buf 0 = some i → ¬i < 8 →
      ∃ r, parseO buf = some (r, []) ∧ r.state = 0) ∧
    (∀ buf : List Nat, 18 ≤ buf.length →
      memchrFrom (fun b => b = 32) buf 0 = none →
      ∃ r, parseO buf = some (r, []) ∧ r.state = 0) := by
  refine ⟨by decide, ?_, ?_, ?_⟩
  · intro buf i hlen hm h8 hmp
    refine ⟨{ (default : ParsedRequest) with state := 2 }, ?_, rfl⟩
    simp only [parseO, if_neg (by omega : ¬buf.length < 18), hm, if_pos h8, hmp]
  · intro buf i hlen hm h8
    refine ⟨default, ?_, rfl⟩
    simp only [parseO, if_neg (by omega : ¬buf.length < 18), hm, if_neg h8]
  · intro buf hlen hm
    refine ⟨default, ?_, rfl⟩
    simp only [parseO, if_neg (by omega : ¬buf.length < 18), hm]

/-- Witness for C2: the unrecognized three-byte token `ZZZ` yields Error. -/
theorem c2_method_exhaustiveness_witness :
    ∃ r, parseO (strBytes "ZZZ / HTTP/1.1\r\n\r\n") = some (r, []) ∧ r.state = 2 :=
  c2_method_exhaustiveness.2.1 (strBytes "ZZZ / HTTP/1.1\r\n\r\n") 3 (by decide) (by decide)
    (by decide) (by decide)

/-- C3: every buffer classified Complete has ordered, in-bounds offsets, and
the buffer bytes pin the path, query, and every recorded header name/value
slice to exactly the corresponding request text (delimiters sit just outside
each range and no delimiter occurs inside it). -/
theorem c3_roundtrip_offsets : ∀ (buf : List Nat) (r : ParsedRequest) (hs : List HQuad),
    parseO buf = some (r, hs) → r.state = 1 →
    r.path_start ≤ r.path_end ∧ r.path_end < buf.length ∧
    1 ≤ r.path_start ∧ buf.get? (r.path_start - 1) = some 32 ∧
    (∀ k, r.path_start ≤ k → k < r.path_end →
      ∃ b, buf.get? k = some b ∧ b ≠ 32 ∧ b ≠ 63 ∧ b ≠ 13 ∧ b ≠ 10) ∧
    (r.query_start = 0 → buf.get? r.path_end = some 32) ∧
    (r.query_start ≠ 0 →
      buf.get? r.path_end = some 63 ∧ r.query_start = r.path_end + 1 ∧
      r.query_start ≤ r.query_end ∧ r.query_end < buf.length ∧
      buf.get? r.query_end = some 32 ∧
      (∀ k, r.query_start ≤ k → k < r.query_end →
        ∃ b, buf.get? k = some b ∧ b ≠ 32 ∧ b ≠ 13 ∧ b ≠ 10)) ∧
    r.headers_count = hs.length ∧ (∀ q ∈ hs, goodQuad buf q) ∧
    r.body_start ≤ buf.length :=
  fun _ _ _ hp hst => parseO_complete_spec hp hst

/-- Witness for C3: the end-to-end example buffer, whose parse is Complete
with path `[4,13)`, query `[14,25)` and two headers. -/
theorem c3_roundtrip_offsets_witness :
    (⟨1, .get, 4, 13, 14, 25, 2, 60⟩ : ParsedRequest).path_start ≤
        (⟨1, .get, 4, 13, 14, 25, 2, 60⟩ : ParsedRequest).path_end ∧
      (⟨1, .get, 4, 13, 14, 25, 2, 60⟩ : ParsedRequest).path_end < e2eBuf.length :=
  ⟨(c3_roundtrip_offsets e2eBuf ⟨1, .get, 4, 13, 14, 25, 2, 60⟩
      [(36, 40, 42, 43), (45, 51, 53, 56)] (by decide) (by decide)).1,
   (c3_roundtrip_offsets e2eBuf ⟨1, .get, 4, 13, 14, 25, 2, 60⟩
      [(36, 40, 42, 43), (45, 51, 53, 56)] (by decide) (by decide)).2.1⟩

/-- C4: when the uncapped parse of a buffer is Complete with more than
`MAX_HEADERS` header lines, the real (capped) parse is Complete with
`headers_count` exactly `MAX_HEADERS`, records exactly the first
`MAX_HEADERS` quadruples, and keeps `body_start` (and every other field)
exactly as the uncapped parse computes it — past the end of all headers,
including the dropped ones. -/
theorem c4_header_cap :
    ∀ (buf : List Nat) (rU : ParsedRequest) (hsU : List HQuad),
      parseOU buf = some (rU, hsU) → rU.state = 1 → MAX_HEADERS < hsU.length →
      parseO buf = some ({ rU with headers_count := MAX_HEADERS }, hsU.take MAX_HEADERS) ∧
      ({ rU with headers_count := MAX_HEADERS } : ParsedRequest).state = 1 ∧
      ({ rU with headers_count := MAX_HEADERS } : ParsedRequest).headers_count = MAX_HEADERS ∧
      ({ rU with headers_count := MAX_HEADERS } : ParsedRequest).body_start = rU.body_start := by
  intro buf rU hsU hp hst hlen
  have h := parseOU_capped hp hst
  have hl : (hsU.take MAX_HEADERS).length = MAX_HEADERS := by
    rw [List.length_take]
    omega
  rw [hl] at h
  exact ⟨h, by simpa using hst, rfl, rfl⟩

/-- Witness for C4: the 65-header request `buf65`, whose uncapped parse has
65 headers and body at 408; the capped parse keeps 64 and the same body. -/
theorem c4_header_cap_witness :
    parseO buf65 = some ({ rU65 with headers_count := MAX_HEADERS },
      hsU65.take MAX_HEADERS) :=
  (c4_header_cap buf65 rU65 hsU65 (by decide) (by decide) (by decide)).1

/-- C7: a buffer of at least 18 bytes with a recognized method whose request
line is terminated (first CR/LF after the method's space exists) but
contains no further space before that terminator parses to Incomplete
(state 0), not Error. -/
theorem c7_missing_version_incomplete :
    ∀ (buf : List Nat) (me L : Nat) (m : Method),
      18 ≤ buf.length →
      memchrFrom (fun b => b = 32) buf 0 = some me → me < 8 →
      Method.parse (buf.take me) = some m →
      memchrFrom (fun b => b = 13 || b = 10) buf (me + 1) = some L →
      (∀ k < L, me + 1 ≤ k → buf.get? k ≠ some 32) →
      ∃ r, parseO buf = some (r, []) ∧ r.state = 0 := by
  intro buf me L m hlen hm h8 hmp hle hno
  obtain ⟨hle1, hle2, _, _⟩ := memchrFrom_some hle
  cases hsc : scanPQ buf L (L - (me + 1)) (me + 1) (me + 1) 0 0 with
  | none => exact absurd hsc (scanPQ_ne_none (by omega) _ _ _ _ _)
  | some sres =>
    have hfou : sres.2.2.2 = false := scanPQ_no_space (L - (me + 1)) (me + 1) (me + 1) 0 0
      (fun k hk1 hk2 => hno k hk2 hk1) sres hsc
    obtain ⟨pe, qs, qe, found⟩ := sres
    have hfou2 : found = false := hfou
    subst hfou2
    refine ⟨{ (default : ParsedRequest) with method := m, path_start := me + 1 }, ?_, rfl⟩
    simp only [parseO, if_neg (by omega : ¬buf.length < 18), hm, if_pos h8, hmp, hle, hsc,
      eq_self_iff_true, if_true]

/-- Witness for C7: `"GET /aaaaaaaaaaaa\r\n\r\n"` — terminated request line,
no HTTP-version token, parse is Incomplete. -/
theorem c7_missing_version_incomplete_witness :
    ∃ r, parseO (strBytes "GET /aaaaaaaaaaaa\r\n\r\n") = some (r, []) ∧ r.state = 0 :=
  c7_missing_version_incomplete (strBytes "GET /aaaaaaaaaaaa\r\n\r\n") 3 17 Method.get
    (by decide) (by decide) (by decide) (by decide) (by decide) (by decide)

/-- C9: `parse_request` is total and in-bounds — on every buffer the panic
layer is never hit (no out-of-bounds read, header-loop fuel suffices), the
state is 0, 1, or 2, and at most `MAX_HEADERS` quadruples are written, so
all writes to the 256-entry offsets array are in range. -/
theorem c9_parse_no_panic : ∀ buf : List Nat,
    ∃ r hs, parseO buf = some (r, hs) ∧
      (r.state = 0 ∨ r.state = 1 ∨ r.state = 2) ∧ hs.length ≤ MAX_HEADERS ∧
      4 * hs.length ≤ 256 := by
  intro buf
  obtain ⟨r, hs, h1, h2, h3⟩ := parseO_total buf
  refine ⟨r, hs, h1, by omega, h3, ?_⟩
  have : MAX_HEADERS = 64 := rfl
  omega

/-- Witness for C8: a concrete two-route script (a parameter route and a
bare-`*` wildcard route) on which the two routers agree. -/
theorem c8_routers_agree_witness :
    applyG [("GET".data, "/users/:id".data, 1), ("GET".data, "/static/*".data, 2)] =
      applyS [("GET".data, "/users/:id".data, 1), ("GET".data, "/static/*".data, 2)] ∧
    ∀ method path,
      findR (applyG [("GET".data, "/users/:id".data, 1), ("GET".data, "/static/*".data, 2)])
          method path =
        findR (applyS [("GET".data, "/users/:id".data, 1), ("GET".data, "/static/*".data, 2)])
          method path :=
  c8_routers_agree_on_tame_patterns
    [("GET".data, "/users/:id".data, 1), ("GET".data, "/static/*".data, 2)] (by decide)

end Gust

